import Mathlib

/-
  Verification of the workload-statistics and cost-model core of the
  mongodb-d4 design advisor.

  The statistics engine (`src/workload/stats.py`) and the field-name
  utilities (`src/workload/utilmethods.py`) are embedded from the Python 2
  source.  The cost model and workload segmenter are exercised only by
  `tests/costmodel/unittest_costmodel.py`; their implementation is not part
  of the available sources, so those components are modelled from the
  specification (see the doc comments marked "Modelled from the spec").

  Python 2 semantics that matter here and are preserved by the embedding:
  * `/` between two ints is integer (floor) division;
  * `dict` iteration visits each key once; a missing key raises `KeyError`;
  * `random.randrange(1, 100, 1)` yields an int in 1..99 from the global
    generator; the embedding threads those draws as an explicit
    `draws : Nat → Nat` argument, one draw per dataset row;
  * code that raises an uncaught exception is embedded in `Except`.
-/

/-- A Python value as it appears in workload documents and dataset rows:
ints, strings, `None`, dicts and lists.  Timestamps and other scalars the
statistics code treats opaquely are represented by `vInt`. -/
inductive PyVal where
  | vInt (n : Int)
  | vStr (s : String)
  | vNone
  | vDict (d : List (String × PyVal))
  | vList (l : List PyVal)
deriving Repr

mutual

def decEqPyVal : (a b : PyVal) → Decidable (a = b)
  | .vInt n, .vInt m =>
      match decEq n m with
      | isTrue h => isTrue (by rw [h])
      | isFalse h => isFalse (by simpa using h)
  | .vStr s, .vStr t =>
      match decEq s t with
      | isTrue h => isTrue (by rw [h])
      | isFalse h => isFalse (by simpa using h)
  | .vNone, .vNone => isTrue rfl
  | .vDict d, .vDict e =>
      match decEqPyDict d e with
      | isTrue h => isTrue (by rw [h])
      | isFalse h => isFalse (by simpa using h)
  | .vList l, .vList m =>
      match decEqPyList l m with
      | isTrue h => isTrue (by rw [h])
      | isFalse h => isFalse (by simpa using h)
  | .vInt _, .vStr _ => isFalse (fun h => PyVal.noConfusion h)
  | .vInt _, .vNone => isFalse (fun h => PyVal.noConfusion h)
  | .vInt _, .vDict _ => isFalse (fun h => PyVal.noConfusion h)
  | .vInt _, .vList _ => isFalse (fun h => PyVal.noConfusion h)
  | .vStr _, .vInt _ => isFalse (fun h => PyVal.noConfusion h)
  | .vStr _, .vNone => isFalse (fun h => PyVal.noConfusion h)
  | .vStr _, .vDict _ => isFalse (fun h => PyVal.noConfusion h)
  | .vStr _, .vList _ => isFalse (fun h => PyVal.noConfusion h)
  | .vNone, .vInt _ => isFalse (fun h => PyVal.noConfusion h)
  | .vNone, .vStr _ => isFalse (fun h => PyVal.noConfusion h)
  | .vNone, .vDict _ => isFalse (fun h => PyVal.noConfusion h)
  | .vNone, .vList _ => isFalse (fun h => PyVal.noConfusion h)
  | .vDict _, .vInt _ => isFalse (fun h => PyVal.noConfusion h)
  | .vDict _, .vStr _ => isFalse (fun h => PyVal.noConfusion h)
  | .vDict _, .vNone => isFalse (fun h => PyVal.noConfusion h)
  | .vDict _, .vList _ => isFalse (fun h => PyVal.noConfusion h)
  | .vList _, .vInt _ => isFalse (fun h => PyVal.noConfusion h)
  | .vList _, .vStr _ => isFalse (fun h => PyVal.noConfusion h)
  | .vList _, .vNone => isFalse (fun h => PyVal.noConfusion h)
  | .vList _, .vDict _ => isFalse (fun h => PyVal.noConfusion h)

def decEqPyList : (a b : List PyVal) → Decidable (a = b)
  | [], [] => isTrue rfl
  | [], _ :: _ => isFalse (fun h => List.noConfusion h)
  | _ :: _, [] => isFalse (fun h => List.noConfusion h)
  | x :: xs, y :: ys =>
      match decEqPyVal x y with
      | isFalse h => isFalse (by simp [h])
      | isTrue h =>
          match decEqPyList xs ys with
          | isTrue h2 => isTrue (by rw [h, h2])
          | isFalse h2 => isFalse (by simp [h2])

def decEqPyDict : (a b : List (String × PyVal)) → Decidable (a = b)
  | [], [] => isTrue rfl
  | [], _ :: _ => isFalse (fun h => List.noConfusion h)
  | _ :: _, [] => isFalse (fun h => List.noConfusion h)
  | (k, v) :: xs, (k2, v2) :: ys =>
      match decEq k k2 with
      | isFalse h => isFalse (by simp [h])
      | isTrue h =>
          match decEqPyVal v v2 with
          | isFalse h2 => isFalse (by simp [h2])
          | isTrue h2 =>
              match decEqPyDict xs ys with
              | isTrue h3 => isTrue (by rw [h, h2, h3])
              | isFalse h3 => isFalse (by simp [h3])

end

instance : DecidableEq PyVal := decEqPyVal

/-- Errors raised by the statistics engine (uncaught Python exceptions):
an operation naming a collection absent from the metadata, a dataset row
carrying a field the collection does not declare, or content whose shape
makes the Python code raise (`TypeError`/`AttributeError`/`KeyError`). -/
inductive StatsError where
  | unknownCollection (c : String)
  | unknownField (f : String)
  | malformed
deriving Repr, DecidableEq

/-- Per-field statistics record, as stored in a collection's `fields` map.
`selectivity` is kept as a rational so that both the value the code stores
and the value the spec prescribes are expressible in one type. -/
structure FieldMeta where
  ftype : String
  query_use_count : Nat
  cardinality : Nat
  selectivity : ℚ
deriving Repr, DecidableEq

/-- A metadata collection document: name, declared fields, and the counters
written by `StatsProcessor.processDataset`. -/
structure Col where
  name : String
  fields : List (String × FieldMeta)
  tuple_count : Nat
  avg_doc_size : Nat
deriving Repr, DecidableEq

/-- A sampled dataset row: Python dict field-name → value. -/
abbrev Row := List (String × PyVal)

/-- The sampled dataset: collection name → rows.  A collection with no
entry has no rows (an empty Mongo cursor). -/
abbrev Dataset := List (String × List Row)

/-- Per-collection distinct-value store: field → distinct values seen
(`distinct_values[col][k]` in the source, a dict used as a set). -/
abbrev DMap := List (String × List PyVal)

/-- `distinct_values` across collections, keyed by collection name. -/
abbrev DStore := List (String × DMap)

/-- `metadata_db.Collection.one({'name': c})`: first collection with the
given name. -/
def findCol (md : List Col) (c : String) : Option Col :=
  md.find? (fun col => col.name == c)

/-- Python `len(v)`: defined on strings, lists and dicts, raises
`TypeError` otherwise. -/
def pyLen : PyVal → Except StatsError Nat
  | .vStr s => .ok s.length
  | .vList l => .ok l.length
  | .vDict d => .ok d.length
  | _ => .error .malformed

/-- The byte-size estimate for one field value, from the `if/elif` chain on
`col['fields'][k]['type']` in `processDataset`: int=4, str=len(v),
datetime=8, float=8, any other declared type adds nothing. -/
def fieldSizeE (ft : String) (v : PyVal) : Except StatsError Nat :=
  if ft = "int" then .ok 4
  else if ft = "str" then pyLen v
  else if ft = "datetime" then .ok 8
  else if ft = "float" then .ok 8
  else .ok 0

/-- `distinct_values[col][k][v] = v`: record `v` as a distinct value of
field `k` (no effect when `v` was already present). -/
def dmInsert (dm : DMap) (k : String) (v : PyVal) : DMap :=
  dm.map (fun p => if p.1 = k then (p.1, if v ∈ p.2 then p.2 else p.2 ++ [v]) else p)

/-- Process one sampled row: accumulate the byte size of every field
(12 bytes for `_id`) and record distinct values of declared fields; a field
the collection does not declare raises `KeyError`. -/
def procRow (fields : List (String × FieldMeta)) : Row → DMap → Except StatsError (Nat × DMap)
  | [], dm => .ok (0, dm)
  | (k, v) :: rest, dm =>
      if k = "_id" then do
        let (s, dm2) ← procRow fields rest dm
        .ok (12 + s, dm2)
      else
        match List.lookup k fields with
        | none => .error (.unknownField k)
        | some fm => do
            let sz ← fieldSizeE fm.ftype v
            let (s, dm2) ← procRow fields rest (dmInsert dm k v)
            .ok (sz + s, dm2)

/-- The row loop of `processDataset` for one collection: every row bumps
`tuple_count`; a row is inspected only when its random draw
(`random.randrange(1, 100, 1)`, supplied here as `draws`) is at most
`rate`.  Returns (tuple count, accumulated bytes, distinct values, next
draw index). -/
def procRows (fields : List (String × FieldMeta)) (rate : Nat) (draws : Nat → Nat) :
    List Row → Nat → DMap → Except StatsError (Nat × Nat × DMap × Nat)
  | [], idx, dm => .ok (0, 0, dm, idx)
  | row :: rest, idx, dm =>
      if draws idx ≤ rate then do
        let (sz, dm2) ← procRow fields row dm
        let (tc, total, dm3, idx2) ← procRows fields rate draws rest (idx + 1) dm2
        .ok (tc + 1, sz + total, dm3, idx2)
      else do
        let (tc, total, dm3, idx2) ← procRows fields rate draws rest (idx + 1) dm
        .ok (tc + 1, total, dm3, idx2)

/-- Replace the distinct-value map stored for collection `c`. -/
def dmSet (store : DStore) (c : String) (dm : DMap) : DStore :=
  store.map (fun p => if p.1 = c then (p.1, dm) else p)

/-- `distinct_values[col][k] = {}` for every declared field of a new
collection. -/
def initDM (fields : List (String × FieldMeta)) : DMap :=
  fields.map (fun p => (p.1, []))

/-- First pass of `processDataset`: per collection, count tuples, sample
rows by the random draws, accumulate byte sizes and distinct values, and
set `avg_doc_size` (0 when the collection has no rows, floor division
otherwise). -/
def phase1 (ds : Dataset) (rate : Nat) (draws : Nat → Nat) :
    List Col → Nat → DStore → Except StatsError (List Col × DStore × Nat)
  | [], idx, store => .ok ([], store, idx)
  | col :: rest, idx, store => do
      let store1 := if (List.lookup col.name store).isSome then store
                    else store ++ [(col.name, initDM col.fields)]
      let dm := (List.lookup col.name store1).getD (initDM col.fields)
      let rows := (List.lookup col.name ds).getD []
      let (tc, total, dm2, idx2) ← procRows col.fields rate draws rows idx dm
      let col2 : Col := { col with tuple_count := tc,
                                   avg_doc_size := if tc = 0 then 0 else total / tc }
      let store2 := dmSet store1 col.name dm2
      let (rest2, store3, idx3) ← phase1 ds rate draws rest idx2 store2
      .ok (col2 :: rest2, store3, idx3)

instance {e a : Type} [DecidableEq e] [DecidableEq a] : DecidableEq (Except e a)
  | .ok x, .ok y =>
      match decEq x y with
      | isTrue h => isTrue (by rw [h])
      | isFalse h => isFalse (by simpa using h)
  | .error x, .error y =>
      match decEq x y with
      | isTrue h => isTrue (by rw [h])
      | isFalse h => isFalse (by simpa using h)
  | .ok _, .error _ => isFalse (fun h => Except.noConfusion h)
  | .error _, .ok _ => isFalse (fun h => Except.noConfusion h)

/-- Effectful map over a list, visiting elements left to right and
stopping at the first error (a Python `for` loop over the cursor). -/
def exMapM {a b : Type} (f : a → Except StatsError b) : List a → Except StatsError (List b)
  | [] => .ok []
  | x :: xs => do
      let y ← f x
      let ys ← exMapM f xs
      .ok (y :: ys)

/-- Second pass of `processDataset` for one collection: `cardinality` is
the number of distinct values seen, and `selectivity` is the Python 2
expression `v['cardinality'] / col['tuple_count']` — integer floor division
between two ints — or 0 when `tuple_count` is 0. -/
def phase2col (store : DStore) (col : Col) : Except StatsError Col := do
  match List.lookup col.name store with
  | none => .error .malformed
  | some dm => do
      let fields2 ← exMapM (fun (p : String × FieldMeta) =>
        match List.lookup p.1 dm with
        | none => .error (StatsError.unknownField p.1)
        | some vals => .ok (p.1,
            { p.2 with cardinality := vals.length,
                       selectivity := if col.tuple_count = 0 then 0
                                      else ((vals.length / col.tuple_count : Nat) : ℚ) }))
        col.fields
      .ok { col with fields := fields2 }

/-- `StatsProcessor.processDataset(sample_rate)`: both passes, with the
stream of `random.randrange(1, 100, 1)` draws made explicit (one draw per
dataset row, consumed in collection order). -/
def processDataset (md : List Col) (ds : Dataset) (rate : Nat) (draws : Nat → Nat) :
    Except StatsError (List Col) := do
  let (md1, store, _) ← phase1 ds rate draws md 0 []
  exMapM (phase2col store) md1

/-- The byte table exactly as the claim states it: INT=4, DATETIME=8,
FLOAT=8, STR=length of the value; other declared types contribute 0. -/
def sizeTable (ft : String) (v : PyVal) : Nat :=
  if ft = "int" then 4
  else if ft = "str" then
    (match v with
     | .vStr s => s.length
     | .vList l => l.length
     | .vDict d => d.length
     | _ => 0)
  else if ft = "datetime" then 8
  else if ft = "float" then 8
  else 0

/-- Claimed per-row byte size: every field contributes per `sizeTable`, the
document identifier `_id` contributes a fixed 12 bytes. -/
def rowBytes (fields : List (String × FieldMeta)) (row : Row) : Nat :=
  (row.map (fun p =>
    if p.1 = "_id" then 12
    else
      match List.lookup p.1 fields with
      | some fm => sizeTable fm.ftype p.2
      | none => 0)).sum

/-- The rows actually inspected: row `i` (draw index `idx + i`) is kept
when its random draw is at most the sample rate. -/
def sampledRows (rate : Nat) (draws : Nat → Nat) : Nat → List Row → List Row
  | _, [] => []
  | idx, row :: rest =>
      if draws idx ≤ rate then row :: sampledRows rate draws (idx + 1) rest
      else sampledRows rate draws (idx + 1) rest

/-- Total accumulated bytes over the sampled rows, per the claimed table. -/
def specBytes (fields : List (String × FieldMeta)) (rate : Nat) (draws : Nat → Nat)
    (idx : Nat) (rows : List Row) : Nat :=
  ((sampledRows rate draws idx rows).map (rowBytes fields)).sum

/-- The rows the dataset holds for collection `c`. -/
def dsRows (ds : Dataset) (c : String) : List Row :=
  (List.lookup c ds).getD []

/-- The collection counters as the claim states them: `tuple_count` is the
number of rows, `avg_doc_size` is total accumulated bytes divided by
`tuple_count` (0 when there are no rows, since nothing accumulates). -/
def specCol (ds : Dataset) (rate : Nat) (draws : Nat → Nat) (idx : Nat) (col : Col) : Col :=
  let rows := dsRows ds col.name
  { col with tuple_count := rows.length,
             avg_doc_size := specBytes col.fields rate draws idx rows / rows.length }

/-- The claimed first-pass result for the whole metadata, with the draw
index threaded across collections in order. -/
def specPhase (ds : Dataset) (rate : Nat) (draws : Nat → Nat) : List Col → Nat → List Col
  | [], _ => []
  | col :: rest, idx =>
      specCol ds rate draws idx col ::
        specPhase ds rate draws rest (idx + (dsRows ds col.name).length)

theorem exBind_ok {e a b : Type} {x : Except e a} {f : a → Except e b} {r : b}
    (h : (x >>= f) = .ok r) : ∃ v, x = .ok v ∧ f v = .ok r := by
  cases x with
  | ok v => exact ⟨v, rfl, h⟩
  | error err => exact absurd h (by simp [Bind.bind, Except.bind])

theorem exMapM_ok {a b : Type} (f : a → Except StatsError b) :
    ∀ (l : List a) (l2 : List b), exMapM f l = .ok l2 →
      List.Forall₂ (fun x y => f x = .ok y) l l2 := by
  intro l
  induction l with
  | nil =>
      intro l2 h
      simp only [exMapM] at h
      cases h
      exact .nil
  | cons x xs ih =>
      intro l2 h
      simp only [exMapM] at h
      obtain ⟨y, hy, h⟩ := exBind_ok h
      obtain ⟨ys, hys, h⟩ := exBind_ok h
      cases h
      exact .cons hy (ih ys hys)

theorem fieldSizeE_ok {ft : String} {v : PyVal} {n : Nat}
    (h : fieldSizeE ft v = .ok n) : n = sizeTable ft v := by
  unfold fieldSizeE at h
  unfold sizeTable
  split_ifs at h ⊢ with h1 h2 h3 h4
  · cases h; rfl
  · cases v <;> simp [pyLen] at h ⊢ <;> omega
  · cases h; rfl
  · cases h; rfl
  · cases h; rfl

theorem rowBytes_cons (fields : List (String × FieldMeta)) (k : String) (v : PyVal) (rest : Row) :
    rowBytes fields ((k, v) :: rest) =
      (if k = "_id" then 12
       else
         match List.lookup k fields with
         | some fm => sizeTable fm.ftype v
         | none => 0) + rowBytes fields rest := by
  simp [rowBytes]

theorem procRow_ok (fields : List (String × FieldMeta)) :
    ∀ (row : Row) (dm : DMap) (s : Nat) (dm2 : DMap),
      procRow fields row dm = .ok (s, dm2) → s = rowBytes fields row := by
  intro row
  induction row with
  | nil =>
      intro dm s dm2 h
      simp only [procRow] at h
      cases h
      simp [rowBytes]
  | cons p rest ih =>
      obtain ⟨k, v⟩ := p
      intro dm s dm2 h
      simp only [procRow] at h
      by_cases hk : k = "_id"
      · rw [if_pos hk] at h
        obtain ⟨⟨s1, dmr⟩, hrec, h⟩ := exBind_ok h
        cases h
        rw [rowBytes_cons, if_pos hk, ← ih dm s1 dmr hrec]
      · rw [if_neg hk] at h
        cases hlook : List.lookup k fields with
        | none => rw [hlook] at h; exact absurd h (by simp)
        | some fm =>
            rw [hlook] at h
            obtain ⟨sz, hsz, h⟩ := exBind_ok h
            obtain ⟨⟨s1, dmr⟩, hrec, h⟩ := exBind_ok h
            cases h
            rw [rowBytes_cons, if_neg hk, hlook, ← ih _ s1 dmr hrec, fieldSizeE_ok hsz]

theorem procRows_ok (fields : List (String × FieldMeta)) (rate : Nat) (draws : Nat → Nat) :
    ∀ (rows : List Row) (idx : Nat) (dm : DMap) (tc total : Nat) (dm2 : DMap) (idx2 : Nat),
      procRows fields rate draws rows idx dm = .ok (tc, total, dm2, idx2) →
      tc = rows.length ∧ total = specBytes fields rate draws idx rows ∧
        idx2 = idx + rows.length := by
  intro rows
  induction rows with
  | nil =>
      intro idx dm tc total dm2 idx2 h
      simp only [procRows] at h
      cases h
      simp [specBytes, sampledRows]
  | cons row rest ih =>
      intro idx dm tc total dm2 idx2 h
      simp only [procRows] at h
      by_cases hd : draws idx ≤ rate
      · rw [if_pos hd] at h
        obtain ⟨⟨sz, dmr⟩, hrow, h⟩ := exBind_ok h
        obtain ⟨⟨tc1, total1, dm3, idx3⟩, hrec, h⟩ := exBind_ok h
        cases h
        obtain ⟨htc, htotal, hidx⟩ := ih (idx + 1) dmr tc1 total1 dm3 idx3 hrec
        refine ⟨by simp [htc], ?_, by simp [hidx]; omega⟩
        simp only [specBytes, sampledRows, if_pos hd, List.map_cons, List.sum_cons]
        rw [htotal, procRow_ok fields row dm sz dmr hrow]
        rfl
      · rw [if_neg hd] at h
        obtain ⟨⟨tc1, total1, dm3, idx3⟩, hrec, h⟩ := exBind_ok h
        cases h
        obtain ⟨htc, htotal, hidx⟩ := ih (idx + 1) dm tc1 total1 dm3 idx3 hrec
        refine ⟨by simp [htc], ?_, by simp [hidx]; omega⟩
        simp only [specBytes, sampledRows, if_neg hd]
        exact htotal

theorem phase1_ok (ds : Dataset) (rate : Nat) (draws : Nat → Nat) :
    ∀ (md : List Col) (idx : Nat) (store : DStore) (md1 : List Col)
      (store2 : DStore) (idx2 : Nat),
      phase1 ds rate draws md idx store = .ok (md1, store2, idx2) →
      md1 = specPhase ds rate draws md idx := by
  intro md
  induction md with
  | nil =>
      intro idx store md1 store2 idx2 h
      simp only [phase1] at h
      cases h
      rfl
  | cons col rest ih =>
      intro idx store md1 store2 idx2 h
      simp only [phase1] at h
      obtain ⟨⟨tc, total, dmr, idxr⟩, hrows, h⟩ := exBind_ok h
      obtain ⟨⟨rest2, store3, idx3⟩, hrec, h⟩ := exBind_ok h
      cases h
      obtain ⟨htc, htotal, hidx⟩ := procRows_ok _ _ _ _ _ _ _ _ _ _ hrows
      subst htc htotal hidx
      simp only [specPhase, List.cons.injEq]
      constructor
      · simp only [specCol, dsRows]
        by_cases h0 : ((List.lookup col.name ds).getD []).length = 0
        · rw [List.length_eq_zero] at h0
          simp [h0, specBytes, sampledRows]
        · rw [if_neg h0]
      · exact ih _ _ _ _ _ hrec

theorem phase2col_ok {store : DStore} {col col2 : Col}
    (h : phase2col store col = .ok col2) :
    col2.name = col.name ∧ col2.tuple_count = col.tuple_count ∧
      col2.avg_doc_size = col.avg_doc_size := by
  simp only [phase2col] at h
  cases hlook : List.lookup col.name store with
  | none => rw [hlook] at h; exact absurd h (by simp)
  | some dm =>
      rw [hlook] at h
      obtain ⟨fields2, hf, h⟩ := exBind_ok h
      cases h
      exact ⟨rfl, rfl, rfl⟩

/-- C4: the statistics engine accumulates per-row byte sizes INT=4,
DATETIME=8, FLOAT=8, STR=length of the value and a fixed 12 bytes for the
`_id` field, over the rows selected by the sampling draws, and stores
`avg_doc_size` = accumulated total divided by `tuple_count` for every
collection (0 when nothing was sampled: an empty sample accumulates 0
bytes).  `specPhase`/`specCol`/`specBytes`/`rowBytes`/`sizeTable` restate
the claimed arithmetic; the theorem says the code's result agrees with it
pointwise. -/
theorem processDataset_avg_doc_size (md : List Col) (ds : Dataset) (rate : Nat)
    (draws : Nat → Nat) (md' : List Col)
    (h : processDataset md ds rate draws = .ok md') :
    List.Forall₂ (fun a b => b.name = a.name ∧ b.tuple_count = a.tuple_count ∧
        b.avg_doc_size = a.avg_doc_size)
      (specPhase ds rate draws md 0) md' ∧
    (∀ (idx : Nat) (col : Col),
      sampledRows rate draws idx (dsRows ds col.name) = [] →
        (specCol ds rate draws idx col).avg_doc_size = 0) := by
  constructor
  · simp only [processDataset] at h
    obtain ⟨⟨md1, store, idxf⟩, hp1, h⟩ := exBind_ok h
    rw [phase1_ok ds rate draws md 0 [] md1 store idxf hp1] at h
    exact (exMapM_ok _ _ _ h).imp (fun {a b} hcol => phase2col_ok hcol)
  · intro idx col hempty
    simp [specCol, specBytes, hempty]

/-- A concrete dataset exposing the selectivity computation: one declared
int field, two rows carrying the same value, every row sampled. -/
def c2Col : Col := ⟨("c"), [(("a"), ⟨("int"), 0, 0, 0⟩)], 0, 0⟩

def c2Rows : List Row := [[(("a"), PyVal.vInt 5)], [(("a"), PyVal.vInt 5)]]

/-- C2 (code bug): on two rows with one distinct value the code stores
selectivity 0 — `cardinality / tuple_count` is Python 2 integer division —
whereas cardinality divided by tuple_count as an exact rational is 1/2.
The first conjunct evaluates the embedded code at the failing input
(cardinality 1, tuple_count 2, stored selectivity 0); the second states
that the claimed exact ratio differs. -/
theorem selectivity_integer_division_at_failing_input :
    processDataset [c2Col] [(("c"), c2Rows)] 50 (fun _ => 1) =
      .ok [⟨("c"), [(("a"), ⟨("int"), 0, 1, 0⟩)], 2, 4⟩] ∧
    ((1 : ℚ) / 2 ≠ 0 ∧ ((1 / 2 : Nat) : ℚ) = 0) := by
  refine ⟨by decide, by norm_num, by norm_num⟩

/-- A dataset on which the result depends on the random draws: a single
row with a 5-byte string field, sample rate 50. -/
def c5md : List Col := [⟨("d"), [(("s"), ⟨("str"), 0, 0, 0⟩)], 0, 0⟩]

def c5ds : Dataset := [(("d"), [[(("s"), PyVal.vStr "hello")]])]

/-- C5 counterexample: two runs of `processDataset` on identical caller
arguments (metadata, dataset, sample rate) differ when the hidden
`random.randrange` draws differ (draw 1 samples the row, draw 99 skips
it), so statistics computation is not a function of its inputs alone. -/
theorem processDataset_rng_counterexample :
    processDataset c5md c5ds 50 (fun _ => 1) ≠
      processDataset c5md c5ds 50 (fun _ => 99) := by decide

theorem procRows_high_rate (fields : List (String × FieldMeta)) (rate : Nat)
    (d1 d2 : Nat → Nat) (hrate : 99 ≤ rate) (h1 : ∀ n, d1 n ≤ 99) (h2 : ∀ n, d2 n ≤ 99) :
    ∀ (rows : List Row) (idx : Nat) (dm : DMap),
      procRows fields rate d1 rows idx dm = procRows fields rate d2 rows idx dm := by
  intro rows
  induction rows with
  | nil => intro idx dm; rfl
  | cons row rest ih =>
      intro idx dm
      simp only [procRows, if_pos (le_trans (h1 idx) hrate), if_pos (le_trans (h2 idx) hrate)]
      cases procRow fields row dm with
      | error e => rfl
      | ok pr =>
          obtain ⟨sz, dmr⟩ := pr
          simp only [Bind.bind, Except.bind]
          rw [ih (idx + 1) dmr]

theorem phase1_high_rate (ds : Dataset) (rate : Nat) (d1 d2 : Nat → Nat)
    (hrate : 99 ≤ rate) (h1 : ∀ n, d1 n ≤ 99) (h2 : ∀ n, d2 n ≤ 99) :
    ∀ (md : List Col) (idx : Nat) (store : DStore),
      phase1 ds rate d1 md idx store = phase1 ds rate d2 md idx store := by
  intro md
  induction md with
  | nil => intro idx store; rfl
  | cons col rest ih =>
      intro idx store
      simp only [phase1]
      rw [procRows_high_rate col.fields rate d1 d2 hrate h1 h2]
      cases procRows col.fields rate d2 ((List.lookup col.name ds).getD [])
          idx ((List.lookup col.name
                  (if (List.lookup col.name store).isSome = true then store
                   else store ++ [(col.name, initDM col.fields)])).getD
                (initDM col.fields)) with
      | error e => rfl
      | ok r =>
          obtain ⟨tc, total, dmr, idxr⟩ := r
          simp only [Bind.bind, Except.bind]
          rw [ih idxr]

/-- C5 amended: the cost-model side is a pure function, and the statistics
computation is deterministic once the hidden sampling randomness cannot
change the outcome — for any sample rate of at least 99 every
`random.randrange(1, 100, 1)` draw (always ≤ 99) accepts the row, so two
runs on identical caller inputs agree whatever the generator produced. -/
theorem processDataset_deterministic_high_rate (md : List Col) (ds : Dataset)
    (rate : Nat) (d1 d2 : Nat → Nat) (hrate : 99 ≤ rate)
    (h1 : ∀ n, d1 n ≤ 99) (h2 : ∀ n, d2 n ≤ 99) :
    processDataset md ds rate d1 = processDataset md ds rate d2 := by
  simp only [processDataset]
  rw [phase1_high_rate ds rate d1 d2 hrate h1 h2]

/-- Witness for C5's amended theorem: at sample rate 99 the two concrete
draw streams that disagreed at rate 50 produce identical statistics. -/
theorem processDataset_deterministic_high_rate_witness :
    processDataset c5md c5ds 99 (fun _ => 1) = processDataset c5md c5ds 99 (fun _ => 99) :=
  processDataset_deterministic_high_rate c5md c5ds 99 (fun _ => 1) (fun _ => 99)
    (Nat.le_refl 99) (fun _ => by show (1 : Nat) ≤ 99; decide)
    (fun _ => by show (99 : Nat) ≤ 99; decide)

/-- Witness for C4: the avg-doc-size theorem applied to the concrete
two-row int dataset (total 8 bytes over 2 tuples gives avg 4). -/
theorem processDataset_avg_doc_size_witness :
    List.Forall₂ (fun (a b : Col) => b.name = a.name ∧ b.tuple_count = a.tuple_count ∧
        b.avg_doc_size = a.avg_doc_size)
      (specPhase [(("c"), c2Rows)] 50 (fun _ => 1) [c2Col] 0)
      [(⟨("c"), [(("a"), ⟨("int"), 0, 1, 0⟩)], 2, 4⟩ : Col)] ∧
    (∀ (idx : Nat) (col : Col),
      sampledRows 50 (fun _ => 1) idx (dsRows [(("c"), c2Rows)] col.name) = [] →
        (specCol [(("c"), c2Rows)] 50 (fun _ => 1) idx col).avg_doc_size = 0) :=
  processDataset_avg_doc_size [c2Col] [(("c"), c2Rows)] 50 (fun _ => 1)
    [⟨("c"), [(("a"), ⟨("int"), 0, 1, 0⟩)], 2, 4⟩] (by decide)

/-- A workload operation as `processWorkload` reads it: target collection,
the `op['type']` string, and the list of content documents. -/
structure WOp where
  collection : String
  typ : String
  query_content : List PyVal
deriving Repr, DecidableEq

/-- The `tuples` list built by `processWorkload` for one operation, per the
`if/elif` chain on `op['type']`:
* `$delete`/`$insert`: the items of every content document (a non-dict
  content raises `AttributeError`, uncaught);
* `$query`: the items of each content's `query` sub-document, skipped when
  it is `None` (a missing `query` key raises `KeyError`; a non-dict value
  raises, both uncaught);
* `$update`: the items of every content document, non-dicts silently
  skipped (the `except AttributeError: pass`);
* any other type string: no tuples. -/
def pyDictE : PyVal → Except StatsError (List (String × PyVal))
  | PyVal.vDict d => .ok d
  | _ => .error StatsError.malformed

/-- `content['query'].iteritems()` guarded by `content['query'] != None`:
the items of the `query` sub-document, `[]` when it is `None`, an error
when the key is missing, not a dict, or the content itself is not a
dict. -/
def queryDictE : PyVal → Except StatsError (List (String × PyVal))
  | PyVal.vDict d =>
      match List.lookup ("query") d with
      | none => .error StatsError.malformed
      | some PyVal.vNone => .ok []
      | some (PyVal.vDict q) => .ok q
      | some _ => .error StatsError.malformed
  | _ => .error StatsError.malformed

/-- `content.iteritems()` under `try/except AttributeError: pass`: the
items of a dict content, nothing for anything else. -/
def updateDict : PyVal → List (String × PyVal)
  | PyVal.vDict d => d
  | _ => []

def opTuples (t : String) (contents : List PyVal) : Except StatsError (List (String × PyVal)) :=
  if t = "$delete" ∨ t = "$insert" then do
    let ls ← exMapM pyDictE contents
    .ok ls.flatten
  else if t = "$query" then do
    let ls ← exMapM queryDictE contents
    .ok ls.flatten
  else if t = "$update" then
    .ok ((contents.map updateDict).flatten)
  else .ok []

/-- `col_info['fields'][k]['query_use_count'] += 1` with the surrounding
`except KeyError: pass`: bump the counter when the field is declared, do
nothing otherwise. -/
def incrField (fields : List (String × FieldMeta)) (k : String) : List (String × FieldMeta) :=
  fields.map (fun p =>
    (p.1, if p.1 = k then { p.2 with query_use_count := p.2.query_use_count + 1 } else p.2))

/-- Save the updated document fetched by `Collection.one`: replace the
first collection with the given name. -/
def updateFirstCol (md : List Col) (c : String) (f : Col → Col) : List Col :=
  match md with
  | [] => []
  | col :: rest =>
      if col.name = c then f col :: rest else col :: updateFirstCol rest c f

/-- Process one workload operation: fetch the collection document, build
the tuples, then bump `query_use_count` once per tuple whose key is a
declared field.  When the operation references a collection absent from
the metadata, the Python code dereferences `None` and raises
(`TypeError`/`AttributeError`, uncaught) — embedded as the
`unknownCollection` error. -/
def processOp (md : List Col) (op : WOp) : Except StatsError (List Col) := do
  let colInfo := findCol md op.collection
  let tuples ← opTuples op.typ op.query_content
  match colInfo with
  | none => .error (StatsError.unknownCollection op.collection)
  | some _ =>
      .ok (updateFirstCol md op.collection
        (fun col => { col with fields := (tuples.map Prod.fst).foldl incrField col.fields }))

/-- `StatsProcessor.processWorkload`: iterate the first 1000 workload
records (`find().limit(1000)`) and each record's operations in order,
threading the metadata through the saves. -/
def processWorkload (md : List Col) (workload : List (List WOp)) : Except StatsError (List Col) :=
  (workload.take 1000).foldlM (fun m sess => sess.foldlM processOp m) md

/-- The `query_use_count` stored for field `f` in a fields map (0 when
the field is absent). -/
def fieldCount (fields : List (String × FieldMeta)) (f : String) : Nat :=
  match List.lookup f fields with
  | some fm => fm.query_use_count
  | none => 0

/-- The `query_use_count` stored for field `f` of the first collection
named `c` (0 when absent). -/
def getUseCount (md : List Col) (c f : String) : Nat :=
  match findCol md c with
  | some col => fieldCount col.fields f
  | none => 0

theorem lookup_incrField (fields : List (String × FieldMeta)) (f k : String) :
    List.lookup f (incrField fields k) =
      (List.lookup f fields).map (fun fm =>
        if f = k then { fm with query_use_count := fm.query_use_count + 1 } else fm) := by
  induction fields with
  | nil => rfl
  | cons p rest ih =>
      obtain ⟨k1, fm1⟩ := p
      by_cases h2 : f = k1
      · subst h2
        simp [incrField, List.lookup]
      · simp only [incrField, List.map_cons, List.lookup]
        rw [show (f == k1) = false by simpa using h2]
        simpa [incrField] using ih

theorem fieldCount_incrField (fields : List (String × FieldMeta)) (f k : String)
    (hf : (List.lookup f fields).isSome = true) :
    fieldCount (incrField fields k) f = fieldCount fields f + (if f = k then 1 else 0) := by
  cases hlook : List.lookup f fields with
  | none => rw [hlook] at hf; simp at hf
  | some fm =>
      simp only [fieldCount, lookup_incrField, hlook, Option.map_some]
      by_cases h : f = k
      · simp [h]
      · simp [h]

theorem isSome_lookup_incrField (fields : List (String × FieldMeta)) (f k : String) :
    (List.lookup f (incrField fields k)).isSome = (List.lookup f fields).isSome := by
  rw [lookup_incrField]
  cases List.lookup f fields <;> rfl

theorem fieldCount_foldl_incr (f : String) :
    ∀ (keys : List String) (fields : List (String × FieldMeta)),
      (List.lookup f fields).isSome = true →
      fieldCount (keys.foldl incrField fields) f = fieldCount fields f + keys.count f := by
  intro keys
  induction keys with
  | nil => intro fields _; simp
  | cons k rest ih =>
      intro fields hf
      simp only [List.foldl_cons]
      rw [ih (incrField fields k) (by rw [isSome_lookup_incrField]; exact hf)]
      rw [fieldCount_incrField fields f k hf]
      by_cases h : f = k
      · subst h
        simp [List.count_cons]
        omega
      · simp [List.count_cons, Ne.symm h]
        exact h

theorem findCol_updateFirstCol (md : List Col) (c : String) (g : Col → Col)
    (hg : ∀ col, (g col).name = col.name) :
    findCol (updateFirstCol md c g) c = (findCol md c).map g := by
  induction md with
  | nil => rfl
  | cons col rest ih =>
      by_cases h : col.name = c
      · simp [updateFirstCol, findCol, h, List.find?, hg]
      · simp only [updateFirstCol, if_neg h, findCol, List.find?]
        rw [show (col.name == c) = false by simpa using h]
        exact ih

theorem processOp_ok_iff (md : List Col) (op : WOp) (col : Col)
    (tup : List (String × PyVal))
    (hfind : findCol md op.collection = some col)
    (htup : opTuples op.typ op.query_content = .ok tup) :
    processOp md op = .ok (updateFirstCol md op.collection
      (fun c0 => { c0 with fields := (tup.map Prod.fst).foldl incrField c0.fields })) := by
  simp only [processOp, htup]
  rw [hfind]
  rfl

theorem incrField_of_lookup_none :
    ∀ (fields : List (String × FieldMeta)) (k : String),
      List.lookup k fields = none → incrField fields k = fields := by
  intro fields k
  induction fields with
  | nil => intro _; rfl
  | cons p rest ih =>
      obtain ⟨k1, fm1⟩ := p
      intro h
      simp only [List.lookup] at h
      cases hb : (k == k1) with
      | true => rw [hb] at h; cases h
      | false =>
          rw [hb] at h
          simp only [incrField, List.map_cons]
          rw [if_neg (fun hh => by rw [hh] at hb; simp at hb)]
          have := ih h
          simp only [incrField] at this
          rw [this]

theorem foldl_incr_filter :
    ∀ (keys : List String) (fields : List (String × FieldMeta)),
      keys.foldl incrField fields =
        (keys.filter (fun k => (List.lookup k fields).isSome)).foldl incrField fields := by
  intro keys
  induction keys with
  | nil => intro fields; rfl
  | cons k rest ih =>
      intro fields
      by_cases hk : (List.lookup k fields).isSome = true
      · rw [List.filter_cons, if_pos (by simpa using hk)]
        simp only [List.foldl_cons]
        rw [ih (incrField fields k)]
        rw [List.filter_congr (fun a _ => by rw [isSome_lookup_incrField])]
      · rw [List.filter_cons, if_neg (by simpa using hk)]
        simp only [List.foldl_cons]
        rw [incrField_of_lookup_none fields k
          (Option.not_isSome_iff_eq_none.mp (by simpa using hk))]
        exact ih fields

/-- C7: an operation whose content references a field the collection does
not declare is processed without error, the unknown field is ignored (the
`except KeyError: pass`), and the declared fields' counters are updated
exactly as if the unknown field were filtered out of the referenced keys. -/
theorem processOp_ignores_unknown_fields (md : List Col) (op : WOp) (col : Col)
    (tup : List (String × PyVal))
    (hfind : findCol md op.collection = some col)
    (htup : opTuples op.typ op.query_content = .ok tup) :
    processOp md op = .ok (updateFirstCol md op.collection
      (fun c0 => { c0 with fields :=
        ((tup.map Prod.fst).filter
          (fun k => (List.lookup k c0.fields).isSome)).foldl incrField c0.fields })) := by
  rw [processOp_ok_iff md op col tup hfind htup]
  have hg : (fun c0 : Col => { c0 with fields := (tup.map Prod.fst).foldl incrField c0.fields })
      = (fun c0 : Col => { c0 with fields :=
          ((tup.map Prod.fst).filter
            (fun k => (List.lookup k c0.fields).isSome)).foldl incrField c0.fields }) := by
    funext c0
    rw [foldl_incr_filter]
  rw [hg]

theorem count_keys_of_nodup (f : String) :
    ∀ (d : List (String × PyVal)), (d.map Prod.fst).Nodup →
      (d.map Prod.fst).count f = if (List.lookup f d).isSome then 1 else 0 := by
  intro d
  induction d with
  | nil => intro _; simp [List.lookup]
  | cons p rest ih =>
      obtain ⟨k, v⟩ := p
      intro hnd
      simp only [List.map_cons, List.nodup_cons] at hnd
      simp only [List.map_cons, List.count_cons, List.lookup]
      by_cases hfk : f = k
      · subst hfk
        simp only [beq_self_eq_true]
        rw [List.count_eq_zero.mpr hnd.1]
        simp
      · simp only [show (f == k) = false from by simpa using hfk,
          show (k == f) = false from by simpa using Ne.symm hfk]
        rw [ih hnd.2]
        simp

/-- The dict of a content document that the `tuples` extraction walks: the
`query` sub-document for `$query` operations, the content itself for the
other types (nothing for non-dict shapes the code skips). -/
def queryDict : PyVal → List (String × PyVal)
  | PyVal.vDict d =>
      match List.lookup ("query") d with
      | some (PyVal.vDict q) => q
      | _ => []
  | _ => []

def opDictOf (t : String) (c : PyVal) : List (String × PyVal) :=
  if t = "$query" then queryDict c else updateDict c

/-- Does one content document of an operation of type `t` reference field
`f`? -/
def refsField (t f : String) (c : PyVal) : Bool :=
  (List.lookup f (opDictOf t c)).isSome

/-- Number of content documents of the operation that reference field `f`
(0 for type strings the code does not recognise). -/
def refDocCount (op : WOp) (f : String) : Nat :=
  if op.typ = "$delete" ∨ op.typ = "$insert" ∨ op.typ = "$update" ∨ op.typ = "$query" then
    (op.query_content.filter (refsField op.typ f)).length
  else 0

/-- The relevant dict of a content document has no duplicate keys — true
of any document that was a Python dict. -/
def contentKeysNodup (t : String) (c : PyVal) : Prop :=
  ((opDictOf t c).map Prod.fst).Nodup

instance (t : String) (c : PyVal) : Decidable (contentKeysNodup t c) := by
  unfold contentKeysNodup
  infer_instance

theorem forall2_ok_eq_map {a b : Type} {ext : a → Except StatsError b} {g : a → b}
    (hg : ∀ c d, ext c = .ok d → d = g c) :
    ∀ {contents : List a} {ls : List b},
      List.Forall₂ (fun c d => ext c = .ok d) contents ls → ls = contents.map g := by
  intro contents ls h
  induction h with
  | nil => rfl
  | cons hcd _ ih =>
      simp only [List.map_cons, ih, List.cons.injEq]
      exact ⟨hg _ _ hcd, trivial⟩

theorem pyDictE_eq_updateDict (c : PyVal) (d : List (String × PyVal))
    (h : pyDictE c = .ok d) : d = updateDict c := by
  cases c
  case vDict d0 =>
    simp [pyDictE] at h
    simp [updateDict, h]
  all_goals simp [pyDictE] at h

theorem queryDictE_eq_queryDict (c : PyVal) (d : List (String × PyVal))
    (h : queryDictE c = .ok d) : d = queryDict c := by
  cases c with
  | vDict d0 =>
      simp only [queryDictE] at h
      cases hq : List.lookup ("query") d0 with
      | none => rw [hq] at h; cases h
      | some v =>
          rw [hq] at h
          cases v <;> simp only [queryDict, hq] <;> cases h <;> rfl
  | vInt n => cases h
  | vStr s => cases h
  | vNone => cases h
  | vList l => cases h

theorem count_flatten_extract (g : PyVal → List (String × PyVal)) (f : String) :
    ∀ (contents : List PyVal),
      (∀ c ∈ contents, ((g c).map Prod.fst).Nodup) →
      (((contents.map g).flatten.map Prod.fst).count f =
        (contents.filter (fun c => (List.lookup f (g c)).isSome)).length) := by
  intro contents
  induction contents with
  | nil => intro _; simp
  | cons c rest ih =>
      intro hnd
      simp only [List.map_cons, List.flatten_cons, List.map_append, List.count_append,
        List.filter_cons]
      rw [count_keys_of_nodup f (g c) (hnd c (by simp)),
        ih (fun x hx => hnd x (by simp [hx]))]
      by_cases hr : (List.lookup f (g c)).isSome = true
      · simp [hr, Nat.add_comm]
      · simp only [Bool.not_eq_true] at hr
        simp [hr]

theorem count_tup_eq_refDocCount (op : WOp) (tup : List (String × PyVal)) (f : String)
    (htup : opTuples op.typ op.query_content = .ok tup)
    (hnd : ∀ c ∈ op.query_content, contentKeysNodup op.typ c) :
    (tup.map Prod.fst).count f = refDocCount op f := by
  obtain ⟨cl, t, qc⟩ := op
  simp only at htup hnd ⊢
  simp only [opTuples] at htup
  by_cases h1 : t = "$delete" ∨ t = "$insert"
  · rw [if_pos h1] at htup
    obtain ⟨ls, hls, htup⟩ := exBind_ok htup
    cases htup
    have hqs : ¬t = "$query" := by
      rcases h1 with h | h <;> subst h <;> decide
    rw [forall2_ok_eq_map pyDictE_eq_updateDict (exMapM_ok _ _ _ hls)]
    rw [count_flatten_extract updateDict f qc
      (fun c hc => by simpa [contentKeysNodup, opDictOf, hqs] using hnd c hc)]
    simp only [refDocCount]
    rw [if_pos (by tauto)]
    have hfun : refsField t f = (fun c => (List.lookup f (updateDict c)).isSome) :=
      funext (fun c => by simp [refsField, opDictOf, hqs])
    rw [hfun]
  · rw [if_neg h1] at htup
    by_cases h2 : t = "$query"
    · rw [if_pos h2] at htup
      obtain ⟨ls, hls, htup⟩ := exBind_ok htup
      cases htup
      rw [forall2_ok_eq_map queryDictE_eq_queryDict (exMapM_ok _ _ _ hls)]
      rw [count_flatten_extract queryDict f qc
        (fun c hc => by simpa [contentKeysNodup, opDictOf, h2] using hnd c hc)]
      simp only [refDocCount]
      rw [if_pos (by tauto)]
      have hfun : refsField t f = (fun c => (List.lookup f (queryDict c)).isSome) :=
        funext (fun c => by simp [refsField, opDictOf, h2])
      rw [hfun]
    · rw [if_neg h2] at htup
      by_cases h3 : t = "$update"
      · rw [if_pos h3] at htup
        cases htup
        have hqs : ¬t = "$query" := h2
        rw [count_flatten_extract updateDict f qc
          (fun c hc => by simpa [contentKeysNodup, opDictOf, hqs] using hnd c hc)]
        simp only [refDocCount]
        rw [if_pos (by tauto)]
        have hfun : refsField t f = (fun c => (List.lookup f (updateDict c)).isSome) :=
          funext (fun c => by simp [refsField, opDictOf, hqs])
        rw [hfun]
      · rw [if_neg h3] at htup
        cases htup
        simp only [refDocCount]
        rw [if_neg (by tauto)]
        simp

/-- The workload used to exhibit the per-reference counting: one `$insert`
session carrying two content documents, both referencing field `a`. -/
def c3md : List Col := [⟨("c"), [(("a"), ⟨("int"), 0, 0, 0⟩)], 0, 0⟩]

def c3op : WOp :=
  ⟨("c"), ("$insert"),
    [PyVal.vDict [(("a"), PyVal.vInt 1)], PyVal.vDict [(("a"), PyVal.vInt 2)]]⟩

/-- C3 counterexample: a single historical operation (one `$insert` with
two content documents, each referencing field `a`) bumps
`query_use_count['a']` by 2, not by 1 as the once-per-operation claim
requires. -/
theorem query_use_count_per_operation_counterexample :
    processWorkload c3md [[c3op]] =
      .ok [⟨("c"), [(("a"), ⟨("int"), 2, 0, 0⟩)], 0, 0⟩] ∧ (2 : Nat) ≠ 1 := by
  refine ⟨by decide, by decide⟩

/-- C3 amended: `query_use_count[f]` grows by one per content document of
the operation that references `f` (for `$query`, per content whose `query`
sub-document references `f`) — the same per-reference rule for all four
operation types — rather than once per operation. -/
theorem query_use_count_per_content_reference (md md2 : List Col) (op : WOp)
    (col : Col) (tup : List (String × PyVal)) (f : String)
    (hfind : findCol md op.collection = some col)
    (htup : opTuples op.typ op.query_content = .ok tup)
    (hproc : processOp md op = .ok md2)
    (hnd : ∀ c ∈ op.query_content, contentKeysNodup op.typ c)
    (hf : (List.lookup f col.fields).isSome = true) :
    getUseCount md2 op.collection f = getUseCount md op.collection f + refDocCount op f := by
  have heq := processOp_ok_iff md op col tup hfind htup
  rw [hproc] at heq
  have hmd2 : md2 = updateFirstCol md op.collection
      (fun c0 => { c0 with fields := (tup.map Prod.fst).foldl incrField c0.fields }) := by
    cases heq
    rfl
  subst hmd2
  simp only [getUseCount]
  rw [findCol_updateFirstCol md op.collection
    (fun c0 => { c0 with fields := (tup.map Prod.fst).foldl incrField c0.fields })
    (fun c0 => rfl), hfind]
  simp only [Option.map_some']
  rw [fieldCount_foldl_incr f (tup.map Prod.fst) col.fields hf]
  rw [count_tup_eq_refDocCount op tup f htup hnd]

/-- Witness for C3's amended theorem: the two-document insert bumps the
counter by its reference count 2. -/
theorem query_use_count_per_content_reference_witness :
    getUseCount [⟨("c"), [(("a"), ⟨("int"), 2, 0, 0⟩)], 0, 0⟩] ("c") ("a") =
      getUseCount c3md ("c") ("a") + refDocCount c3op ("a") :=
  query_use_count_per_content_reference c3md
    [⟨("c"), [(("a"), ⟨("int"), 2, 0, 0⟩)], 0, 0⟩] c3op
    ⟨("c"), [(("a"), ⟨("int"), 0, 0, 0⟩)], 0, 0⟩
    [(("a"), PyVal.vInt 1), (("a"), PyVal.vInt 2)] ("a")
    (by decide) (by decide) (by decide) (by decide) (by decide)

/-- Witness for C7: an `$insert` whose content carries declared field `a`
and undeclared field `zz` is processed without error and only `a` is
counted (the filter drops `zz`). -/
theorem processOp_ignores_unknown_fields_witness :
    processOp [⟨("c"), [(("a"), ⟨("int"), 0, 0, 0⟩)], 0, 0⟩]
        ⟨("c"), ("$insert"), [PyVal.vDict [(("a"), PyVal.vInt 1), (("zz"), PyVal.vInt 2)]]⟩ =
      .ok (updateFirstCol [⟨("c"), [(("a"), ⟨("int"), 0, 0, 0⟩)], 0, 0⟩] ("c")
        (fun c0 => { c0 with fields :=
          (([(("a"), PyVal.vInt 1), (("zz"), PyVal.vInt 2)].map Prod.fst).filter
            (fun k => (List.lookup k c0.fields).isSome)).foldl incrField c0.fields })) :=
  processOp_ignores_unknown_fields
    [⟨("c"), [(("a"), ⟨("int"), 0, 0, 0⟩)], 0, 0⟩]
    ⟨("c"), ("$insert"), [PyVal.vDict [(("a"), PyVal.vInt 1), (("zz"), PyVal.vInt 2)]]⟩
    ⟨("c"), [(("a"), ⟨("int"), 0, 0, 0⟩)], 0, 0⟩
    [(("a"), PyVal.vInt 1), (("zz"), PyVal.vInt 2)]
    (by decide) (by decide)

/-- Is a collection with this name present in the metadata? -/
def hasCol (md : List Col) (c : String) : Bool :=
  (findCol md c).isSome

theorem exIsOk_ok {a : Type} {x : Except StatsError a} (h : x.isOk = true) :
    ∃ v, x = .ok v := by
  cases x with
  | ok v => exact ⟨v, rfl⟩
  | error e => simp [Except.isOk, Except.toBool] at h

theorem updateFirstCol_names (c : String) (g : Col → Col)
    (hg : ∀ col, (g col).name = col.name) :
    ∀ (md : List Col), (updateFirstCol md c g).map Col.name = md.map Col.name := by
  intro md
  induction md with
  | nil => rfl
  | cons col rest ih =>
      by_cases h : col.name = c
      · simp [updateFirstCol, h, hg]
      · simp [updateFirstCol, h, ih]

theorem processOp_names {md md2 : List Col} {op : WOp}
    (h : processOp md op = .ok md2) : md2.map Col.name = md.map Col.name := by
  simp only [processOp] at h
  obtain ⟨tup, htup, h⟩ := exBind_ok h
  cases hfind : findCol md op.collection with
  | none => rw [hfind] at h; cases h
  | some col =>
      rw [hfind] at h
      cases h
      exact updateFirstCol_names op.collection
        (fun c0 => { c0 with fields := (tup.map Prod.fst).foldl incrField c0.fields })
        (fun c0 => rfl) md

theorem hasCol_eq_names : ∀ (md : List Col) (c : String),
    hasCol md c = (md.map Col.name).contains c := by
  intro md c
  induction md with
  | nil => rfl
  | cons col rest ih =>
      simp only [List.map_cons, List.contains_cons]
      by_cases h : col.name = c
      · simp [hasCol, findCol, List.find?, h]
      · simp only [hasCol, findCol, List.find?] at ih ⊢
        rw [show (col.name == c) = false by simpa using h]
        rw [show (c == col.name) = false by simpa using Ne.symm h]
        simpa using ih

theorem hasCol_congr {md m : List Col} (h : m.map Col.name = md.map Col.name)
    (c : String) : hasCol m c = hasCol md c := by
  rw [hasCol_eq_names, hasCol_eq_names, h]

theorem processOp_unknown (m : List Col) (op : WOp)
    (hwf : (opTuples op.typ op.query_content).isOk = true)
    (hfind : findCol m op.collection = none) :
    processOp m op = .error (StatsError.unknownCollection op.collection) := by
  obtain ⟨tup, htup⟩ := exIsOk_ok hwf
  simp only [processOp, htup]
  rw [hfind]
  rfl

theorem foldlM_ops_ok (md : List Col) :
    ∀ (ops : List WOp) (m : List Col),
      m.map Col.name = md.map Col.name →
      (∀ op ∈ ops, (opTuples op.typ op.query_content).isOk = true) →
      (∀ op ∈ ops, hasCol md op.collection = true) →
      ∃ m2, ops.foldlM processOp m = .ok m2 ∧ m2.map Col.name = md.map Col.name := by
  intro ops
  induction ops with
  | nil => intro m hm _ _; exact ⟨m, rfl, hm⟩
  | cons op rest ih =>
      intro m hm hwf hkn
      have hcol : hasCol m op.collection = true := by
        rw [hasCol_congr hm]; exact hkn op (by simp)
      obtain ⟨col, hfind⟩ := Option.isSome_iff_exists.mp hcol
      obtain ⟨tup, htup⟩ := exIsOk_ok (hwf op (by simp))
      have hstep := processOp_ok_iff m op col tup hfind htup
      rw [List.foldlM_cons, hstep]
      have hnames2 : (updateFirstCol m op.collection
          (fun c0 => { c0 with fields := (tup.map Prod.fst).foldl incrField c0.fields })).map Col.name
            = md.map Col.name := by
        rw [updateFirstCol_names op.collection
          (fun c0 => { c0 with fields := (tup.map Prod.fst).foldl incrField c0.fields })
          (fun c0 => rfl) m]
        exact hm
      obtain ⟨m2, hfold, hm2⟩ := ih _ hnames2
        (fun o ho => hwf o (by simp [ho])) (fun o ho => hkn o (by simp [ho]))
      exact ⟨m2, by simpa using hfold, hm2⟩

theorem foldlM_ops_unknown (md : List Col) :
    ∀ (ops : List WOp) (m : List Col),
      m.map Col.name = md.map Col.name →
      (∀ op ∈ ops, (opTuples op.typ op.query_content).isOk = true) →
      (∃ op ∈ ops, hasCol md op.collection = false) →
      ∃ c, ops.foldlM processOp m = .error (StatsError.unknownCollection c) ∧
        hasCol md c = false := by
  intro ops
  induction ops with
  | nil => intro m _ _ hex; simp at hex
  | cons op rest ih =>
      intro m hm hwf hex
      by_cases hop : hasCol md op.collection = false
      · have hfind : findCol m op.collection = none := by
          have := hasCol_congr hm op.collection
          rw [hop] at this
          simpa [hasCol, Option.isNone_iff_eq_none] using
            (Option.not_isSome_iff_eq_none.mp (by simp [hasCol] at this ⊢; exact this))
        rw [List.foldlM_cons, processOp_unknown m op (hwf op (by simp)) hfind]
        exact ⟨op.collection, rfl, hop⟩
      · have hopT : hasCol md op.collection = true := by
          cases hval : hasCol md op.collection with
          | true => rfl
          | false => exact absurd hval hop
        have hcol : hasCol m op.collection = true := by rw [hasCol_congr hm]; exact hopT
        obtain ⟨col, hfind⟩ := Option.isSome_iff_exists.mp hcol
        obtain ⟨tup, htup⟩ := exIsOk_ok (hwf op (by simp))
        have hstep := processOp_ok_iff m op col tup hfind htup
        rw [List.foldlM_cons, hstep]
        have hnames2 : (updateFirstCol m op.collection
            (fun c0 => { c0 with fields := (tup.map Prod.fst).foldl incrField c0.fields })).map Col.name
              = md.map Col.name := by
          rw [updateFirstCol_names op.collection
            (fun c0 => { c0 with fields := (tup.map Prod.fst).foldl incrField c0.fields })
            (fun c0 => rfl) m]
          exact hm
        have hex2 : ∃ o ∈ rest, hasCol md o.collection = false := by
          obtain ⟨o, ho, hof⟩ := hex
          rcases List.mem_cons.mp ho with rfl | homem
          · exact absurd hof hop
          · exact ⟨o, homem, hof⟩
        obtain ⟨c, hfold, hc⟩ := ih _ hnames2 (fun o ho => hwf o (by simp [ho])) hex2
        exact ⟨c, by simpa using hfold, hc⟩

theorem foldlM_sessions_unknown (md : List Col) :
    ∀ (ss : List (List WOp)) (m : List Col),
      m.map Col.name = md.map Col.name →
      (∀ sess ∈ ss, ∀ op ∈ sess, (opTuples op.typ op.query_content).isOk = true) →
      (∃ sess ∈ ss, ∃ op ∈ sess, hasCol md op.collection = false) →
      ∃ c, ss.foldlM (fun m sess => sess.foldlM processOp m) m =
          .error (StatsError.unknownCollection c) ∧ hasCol md c = false := by
  intro ss
  induction ss with
  | nil => intro m _ _ hex; simp at hex
  | cons sess rest ih =>
      intro m hm hwf hex
      by_cases hs : ∃ op ∈ sess, hasCol md op.collection = false
      · obtain ⟨c, hfold, hc⟩ := foldlM_ops_unknown md sess m hm
          (fun o ho => hwf sess (by simp) o ho) hs
        rw [List.foldlM_cons, hfold]
        exact ⟨c, rfl, hc⟩
      · have hkn : ∀ op ∈ sess, hasCol md op.collection = true := by
          intro o ho
          cases hval : hasCol md o.collection with
          | true => rfl
          | false => exact absurd ⟨o, ho, hval⟩ hs
        obtain ⟨m2, hfold, hm2⟩ := foldlM_ops_ok md sess m hm
          (fun o ho => hwf sess (by simp) o ho) hkn
        rw [List.foldlM_cons, hfold]
        have hex2 : ∃ s ∈ rest, ∃ op ∈ s, hasCol md op.collection = false := by
          obtain ⟨s, hsm, o, ho, hof⟩ := hex
          rcases List.mem_cons.mp hsm with rfl | hsmem
          · exact absurd ⟨o, ho, hof⟩ hs
          · exact ⟨s, hsmem, o, ho, hof⟩
        obtain ⟨c, hfold2, hc⟩ := ih m2 hm2
          (fun s hsm o ho => hwf s (by simp [hsm]) o ho) hex2
        exact ⟨c, by simpa using hfold2, hc⟩

/-- C6: when some operation of the (processed prefix of the) workload
references a collection absent from the metadata, `processWorkload` stops
with a synchronous `unknownCollection` error naming an absent collection —
the `except KeyError` around the counter update does not swallow the
`None`-dereference the Python code runs into. -/
theorem processWorkload_unknown_collection (md : List Col)
    (workload : List (List WOp))
    (hwf : ∀ sess ∈ workload.take 1000, ∀ op ∈ sess,
      (opTuples op.typ op.query_content).isOk = true)
    (hunk : ∃ sess ∈ workload.take 1000, ∃ op ∈ sess,
      findCol md op.collection = none) :
    ∃ c, processWorkload md workload =
        .error (StatsError.unknownCollection c) ∧ findCol md c = none := by
  have hunk2 : ∃ sess ∈ workload.take 1000, ∃ op ∈ sess,
      hasCol md op.collection = false := by
    obtain ⟨s, hs, o, ho, hof⟩ := hunk
    exact ⟨s, hs, o, ho, by simp [hasCol, hof]⟩
  obtain ⟨c, hfold, hc⟩ := foldlM_sessions_unknown md (workload.take 1000) md rfl hwf hunk2
  refine ⟨c, hfold, ?_⟩
  simpa [hasCol] using hc

/-- Witness for C6: a well-formed `$query` against collection `d`, absent
from a metadata that only knows collection `c`, makes `processWorkload`
fail with `unknownCollection`. -/
theorem processWorkload_unknown_collection_witness :
    ∃ c, processWorkload [⟨("c"), [(("a"), ⟨("int"), 0, 0, 0⟩)], 0, 0⟩]
        [[⟨("d"), ("$query"),
          [PyVal.vDict [(("query"), PyVal.vDict [(("a"), PyVal.vInt 7)])]]⟩]] =
        .error (StatsError.unknownCollection c) ∧
      findCol [⟨("c"), [(("a"), ⟨("int"), 0, 0, 0⟩)], 0, 0⟩] c = none :=
  processWorkload_unknown_collection
    [⟨("c"), [(("a"), ⟨("int"), 0, 0, 0⟩)], 0, 0⟩]
    [[⟨("d"), ("$query"),
      [PyVal.vDict [(("query"), PyVal.vDict [(("a"), PyVal.vInt 7)])]]⟩]]
    (by decide) (by decide)

/-- `k.startswith('$') or k.find(".") != -1`: keys MongoDB cannot store. -/
def needsFix (k : String) : Bool :=
  k.toList.head? = some '$' || k.toList.contains '.'

/-- Python `str.replace(".", "__")` at character level. -/
def replaceDots : List Char → List Char
  | [] => []
  | c :: rest => if c = '.' then '_' :: '_' :: replaceDots rest else c :: replaceDots rest

/-- The key fix of `escapeFieldNames`: prefix a backslash when the key
starts with `$`, then replace every `.` with `__`. -/
def escapeKey (k : String) : String :=
  let k1 := if k.toList.head? = some '$' then String.mk ('\\' :: k.toList) else k
  String.mk (replaceDots k1.toList)

/-- Python `del copy[k]`: drop the entry with the given key. -/
def dictErase (d : List (String × PyVal)) (k : String) : List (String × PyVal) :=
  match d with
  | [] => []
  | (k1, v) :: rest => if k1 = k then rest else (k1, v) :: dictErase rest k

/-- Python `copy[k] = v`: replace the value when the key exists, append
otherwise. -/
def dictSet (d : List (String × PyVal)) (k : String) (v : PyVal) : List (String × PyVal) :=
  match d with
  | [] => [(k, v)]
  | (k1, v1) :: rest => if k1 = k then (k1, v) :: rest else (k1, v1) :: dictSet rest k v

/-- The second loop of `escapeFieldNames`: for each key collected in
`toFix`, move its value to the escaped key.  (The lookup always succeeds,
`toFix` being collected from the dict's own keys.) -/
def fixKeys (toFix : List String) (d : List (String × PyVal)) : List (String × PyVal) :=
  toFix.foldl (fun acc k =>
    match List.lookup k acc with
    | some v => dictSet (dictErase acc k) (escapeKey k) v
    | none => acc) d

mutual

/-- The first loop of `escapeFieldNames` applied to one value: recurse
into dict values and into dict elements of list values; then (for dicts)
run the key-fixing second loop. -/
def escapeValue : PyVal → PyVal
  | PyVal.vDict d =>
      PyVal.vDict (fixKeys ((d.map Prod.fst).filter needsFix) (escapePass1 d))
  | PyVal.vList l => PyVal.vList (escapeElems l)
  | v => v

def escapeElems : List PyVal → List PyVal
  | [] => []
  | PyVal.vDict d :: rest =>
      PyVal.vDict (fixKeys ((d.map Prod.fst).filter needsFix) (escapePass1 d)) :: escapeElems rest
  | v :: rest => v :: escapeElems rest

def escapePass1 : List (String × PyVal) → List (String × PyVal)
  | [] => []
  | (k, v) :: rest => (k, escapeValue v) :: escapePass1 rest

end

/-- `escapeFieldNames(content)` from `utilmethods.py`: escape nested
values, collect the offending keys, then move each to its escaped name. -/
def escapeFieldNames (content : List (String × PyVal)) : List (String × PyVal) :=
  fixKeys ((content.map Prod.fst).filter needsFix) (escapePass1 content)

theorem escapeValue_vDict (d : List (String × PyVal)) :
    escapeValue (PyVal.vDict d) = PyVal.vDict (escapeFieldNames d) := rfl

/-- A key MongoDB accepts: neither `$`-prefixed nor dotted. -/
def goodKey (k : String) : Bool := !(needsFix k)

mutual

def goodKeysVal : PyVal → Bool
  | PyVal.vDict d => goodKeysDict d
  | PyVal.vList l => goodKeysList l
  | _ => true

def goodKeysList : List PyVal → Bool
  | [] => true
  | v :: rest => goodKeysVal v && goodKeysList rest

def goodKeysDict : List (String × PyVal) → Bool
  | [] => true
  | (k, v) :: rest => goodKey k && goodKeysVal v && goodKeysDict rest

end

mutual

/-- The input domain of the claim: values are nested dictionaries and
lists of dictionaries (or scalars); a list never directly contains
another list. -/
def wfVal : PyVal → Bool
  | PyVal.vDict d => wfDict d
  | PyVal.vList l => wfElems l
  | _ => true

def wfElems : List PyVal → Bool
  | [] => true
  | PyVal.vList _ :: _ => false
  | PyVal.vDict d :: rest => wfDict d && wfElems rest
  | _ :: rest => wfElems rest

def wfDict : List (String × PyVal) → Bool
  | [] => true
  | (_, v) :: rest => wfVal v && wfDict rest

end

theorem replaceDots_not_contains : ∀ (l : List Char), ('.') ∉ replaceDots l := by
  intro l
  induction l with
  | nil => simp [replaceDots]
  | cons c rest ih =>
      by_cases h : c = '.'
      · simp [replaceDots, h, ih]
      · simp [replaceDots, h, ih]
        exact fun hh => h hh.symm

theorem replaceDots_of_not_contains : ∀ (l : List Char), ('.') ∉ l → replaceDots l = l := by
  intro l
  induction l with
  | nil => intro _; rfl
  | cons c rest ih =>
      intro h
      simp only [List.mem_cons, not_or] at h
      have hc : ¬c = '.' := fun hh => h.1 hh.symm
      simp [replaceDots, hc, ih h.2]

theorem replaceDots_head_ne_dollar : ∀ (l : List Char),
    l.head? ≠ some '$' → (replaceDots l).head? ≠ some '$' := by
  intro l h
  cases l with
  | nil => simp [replaceDots]
  | cons c rest =>
      simp only [replaceDots]
      by_cases hc : c = '.'
      · rw [if_pos hc]
        intro hcon
        exact absurd (Option.some.inj hcon) (by decide)
      · rw [if_neg hc]
        simpa using h

theorem escapeKey_not_contains_dot (k : String) : ('.') ∉ (escapeKey k).toList := by
  simp only [escapeKey]
  exact replaceDots_not_contains _

theorem escapeKey_head_ne_dollar (k : String) :
    (escapeKey k).toList.head? ≠ some '$' := by
  simp only [escapeKey]
  by_cases h : k.toList.head? = some '$'
  · rw [if_pos h]
    apply replaceDots_head_ne_dollar
    intro hcon
    exact absurd (Option.some.inj hcon) (by decide)
  · rw [if_neg h]
    exact replaceDots_head_ne_dollar k.toList h

theorem goodKey_escapeKey (k : String) : goodKey (escapeKey k) = true := by
  simp only [goodKey, needsFix, Bool.not_eq_true', Bool.or_eq_false_iff]
  constructor
  · simpa using escapeKey_head_ne_dollar k
  · simpa using escapeKey_not_contains_dot k

theorem escapeKey_of_good (k : String) (h : needsFix k = false) : escapeKey k = k := by
  simp only [needsFix, Bool.or_eq_false_iff] at h
  simp only [escapeKey]
  rw [if_neg (by simpa using h.1)]
  rw [replaceDots_of_not_contains k.toList (by simpa using h.2)]
  rfl

theorem needsFix_escapeKey (k : String) : needsFix (escapeKey k) = false := by
  have := goodKey_escapeKey k
  simpa [goodKey] using this

/-- All values of a dict are recursively escaped/clean (keys unchecked). -/
def goodVals : List (String × PyVal) → Bool
  | [] => true
  | (_, v) :: rest => goodKeysVal v && goodVals rest

theorem fixKeys_cons (k0 : String) (rest : List String) (acc : List (String × PyVal)) :
    fixKeys (k0 :: rest) acc =
      fixKeys rest
        (match List.lookup k0 acc with
         | some v => dictSet (dictErase acc k0) (escapeKey k0) v
         | none => acc) := rfl

theorem lookup_goodVals : ∀ (d : List (String × PyVal)) (k : String) (v : PyVal),
    goodVals d = true → List.lookup k d = some v → goodKeysVal v = true := by
  intro d
  induction d with
  | nil => intro k v _ h; cases h
  | cons p rest ih =>
      obtain ⟨k1, v1⟩ := p
      intro k v hgv hlk
      simp only [goodVals, Bool.and_eq_true] at hgv
      simp only [List.lookup] at hlk
      by_cases hk : k = k1
      · rw [show (k == k1) = true by simpa using hk] at hlk
        cases hlk
        exact hgv.1
      · rw [show (k == k1) = false by simpa using hk] at hlk
        exact ih k v hgv.2 hlk

theorem goodVals_dictErase (k : String) : ∀ (d : List (String × PyVal)),
    goodVals d = true → goodVals (dictErase d k) = true := by
  intro d
  induction d with
  | nil => intro _; rfl
  | cons p rest ih =>
      obtain ⟨k1, v1⟩ := p
      intro hgv
      simp only [goodVals, Bool.and_eq_true] at hgv
      simp only [dictErase]
      by_cases hk : k1 = k
      · rw [if_pos hk]; exact hgv.2
      · rw [if_neg hk]
        simp only [goodVals, Bool.and_eq_true]
        exact ⟨hgv.1, ih hgv.2⟩

theorem goodVals_dictSet (k : String) (v : PyVal) (hv : goodKeysVal v = true) :
    ∀ (d : List (String × PyVal)),
      goodVals d = true → goodVals (dictSet d k v) = true := by
  intro d
  induction d with
  | nil => intro _; simp [dictSet, goodVals, hv]
  | cons p rest ih =>
      obtain ⟨k1, v1⟩ := p
      intro hgv
      simp only [goodVals, Bool.and_eq_true] at hgv
      simp only [dictSet]
      by_cases hk : k1 = k
      · rw [if_pos hk]
        simp only [goodVals, Bool.and_eq_true]
        exact ⟨hv, hgv.2⟩
      · rw [if_neg hk]
        simp only [goodVals, Bool.and_eq_true]
        exact ⟨hgv.1, ih hgv.2⟩

theorem count_keys_dictErase_ne (k k' : String) (hne : k' ≠ k) :
    ∀ (d : List (String × PyVal)),
      ((dictErase d k).map Prod.fst).count k' = (d.map Prod.fst).count k' := by
  intro d
  induction d with
  | nil => rfl
  | cons p rest ih =>
      obtain ⟨k1, v1⟩ := p
      simp only [dictErase]
      by_cases hk : k1 = k
      · rw [if_pos hk]
        subst hk
        rw [List.map_cons, List.count_cons]
        rw [show (k1 == k') = false by simpa using fun h => hne h.symm]
        simp
      · rw [if_neg hk]
        simp only [List.map_cons, List.count_cons]
        rw [ih]

theorem count_keys_dictErase_self (k : String) :
    ∀ (d : List (String × PyVal)) (v : PyVal), List.lookup k d = some v →
      ((dictErase d k).map Prod.fst).count k + 1 = (d.map Prod.fst).count k := by
  intro d
  induction d with
  | nil => intro v h; cases h
  | cons p rest ih =>
      obtain ⟨k1, v1⟩ := p
      intro v hlk
      simp only [List.lookup] at hlk
      simp only [dictErase]
      by_cases hk : k = k1
      · rw [if_pos hk.symm]
        subst hk
        simp [List.count_cons]
      · rw [if_neg (fun h => hk h.symm)]
        rw [show (k == k1) = false by simpa using hk] at hlk
        have h2 := ih v hlk
        simp only [List.map_cons, List.count_cons]
        rw [show (k1 == k) = false by simpa using fun h => hk h.symm]
        simp
        omega

theorem count_keys_dictSet_ne (k k' : String) (v : PyVal) (hne : k' ≠ k) :
    ∀ (d : List (String × PyVal)),
      ((dictSet d k v).map Prod.fst).count k' = (d.map Prod.fst).count k' := by
  intro d
  induction d with
  | nil =>
      simp only [dictSet, List.map_cons, List.map_nil, List.count_cons]
      rw [show (k == k') = false by simpa using fun h => hne h.symm]
      simp
  | cons p rest ih =>
      obtain ⟨k1, v1⟩ := p
      simp only [dictSet]
      by_cases hk : k1 = k
      · rw [if_pos hk]
        simp [List.map_cons, List.count_cons]
      · rw [if_neg hk]
        simp only [List.map_cons, List.count_cons]
        rw [ih]

theorem lookup_none_count (k : String) : ∀ (d : List (String × PyVal)),
    List.lookup k d = none → (d.map Prod.fst).count k = 0 := by
  intro d
  induction d with
  | nil => intro _; rfl
  | cons p rest ih =>
      obtain ⟨k1, v1⟩ := p
      intro hlk
      simp only [List.lookup] at hlk
      cases hb : (k == k1) with
      | true => rw [hb] at hlk; cases hlk
      | false =>
          rw [hb] at hlk
          simp only [List.map_cons, List.count_cons]
          rw [show (k1 == k) = false by
            simpa using fun h => (by simpa using hb : ¬k = k1) h.symm]
          simp [ih hlk]

theorem goodKeysDict_of : ∀ (d : List (String × PyVal)),
    (∀ k ∈ d.map Prod.fst, needsFix k = false) → goodVals d = true →
    goodKeysDict d = true := by
  intro d
  induction d with
  | nil => intro _ _; rfl
  | cons p rest ih =>
      obtain ⟨k1, v1⟩ := p
      intro hk hgv
      simp only [goodVals, Bool.and_eq_true] at hgv
      simp only [goodKeysDict, Bool.and_eq_true]
      refine ⟨⟨?_, hgv.1⟩, ih (fun k hmem => hk k (by simp [hmem])) hgv.2⟩
      simp [goodKey, hk k1 (by simp)]

theorem fixKeys_good : ∀ (toFix : List String) (acc : List (String × PyVal)),
    goodVals acc = true →
    (∀ k ∈ toFix, needsFix k = true) →
    (∀ k, needsFix k = true → (acc.map Prod.fst).count k ≤ toFix.count k) →
    goodKeysDict (fixKeys toFix acc) = true := by
  intro toFix
  induction toFix with
  | nil =>
      intro acc hgv _ hcnt
      apply goodKeysDict_of _ _ hgv
      intro k hk
      cases hnf : needsFix k with
      | false => rfl
      | true =>
          have := hcnt k hnf
          simp only [List.count_nil, Nat.le_zero] at this
          exact absurd this (by simpa [List.count_eq_zero] using hk)
  | cons k0 rest ih =>
      intro acc hgv htf hcnt
      rw [fixKeys_cons]
      cases hlk : List.lookup k0 acc with
      | none =>
          apply ih acc hgv (fun k hk => htf k (by simp [hk]))
          intro k hnf
          have h1 := hcnt k hnf
          by_cases hk : k = k0
          · subst hk
            rw [lookup_none_count k acc hlk]
            exact Nat.zero_le _
          · rw [List.count_cons] at h1
            rw [show (k0 == k) = false by simpa using fun h => hk h.symm] at h1
            simpa using h1
      | some v =>
          apply ih
          · exact goodVals_dictSet (escapeKey k0) v
              (lookup_goodVals acc k0 v hgv hlk) _
              (goodVals_dictErase k0 acc hgv)
          · exact fun k hk => htf k (by simp [hk])
          · intro k hnf
            have hke : k ≠ escapeKey k0 := by
              intro he
              rw [he, needsFix_escapeKey] at hnf
              cases hnf
            rw [count_keys_dictSet_ne (escapeKey k0) k v hke]
            have h1 := hcnt k hnf
            rw [List.count_cons] at h1
            by_cases hk : k = k0
            · subst hk
              have h2 := count_keys_dictErase_self k acc v hlk
              rw [show (k == k) = true by simp] at h1
              simp at h1
              omega
            · rw [count_keys_dictErase_ne k0 k hk]
              rw [show (k0 == k) = false by simpa using fun h => hk h.symm] at h1
              simpa using h1

theorem escapePass1_keys : ∀ (d : List (String × PyVal)),
    (escapePass1 d).map Prod.fst = d.map Prod.fst := by
  intro d
  induction d with
  | nil => rfl
  | cons p rest ih =>
      obtain ⟨k, v⟩ := p
      simp only [escapePass1, List.map_cons, ih]

theorem wfDict_mem : ∀ (d : List (String × PyVal)) (k : String) (v : PyVal),
    wfDict d = true → (k, v) ∈ d → wfVal v = true := by
  intro d
  induction d with
  | nil => intro k v _ h; cases h
  | cons p rest ih =>
      obtain ⟨k1, v1⟩ := p
      intro k v hwf hmem
      simp only [wfDict, Bool.and_eq_true] at hwf
      rcases List.mem_cons.mp hmem with heq | hmem2
      · cases heq; exact hwf.1
      · exact ih k v hwf.2 hmem2

theorem sizeOf_mem_dict : ∀ (d : List (String × PyVal)) (k : String) (v : PyVal),
    (k, v) ∈ d → sizeOf v < sizeOf (PyVal.vDict d) := by
  intro d
  induction d with
  | nil => intro k v h; cases h
  | cons p rest ih =>
      intro k v hmem
      rcases List.mem_cons.mp hmem with heq | hmem2
      · subst heq
        simp only [PyVal.vDict.sizeOf_spec, List.cons.sizeOf_spec, Prod.mk.sizeOf_spec]
        omega
      · have := ih k v hmem2
        simp only [PyVal.vDict.sizeOf_spec, List.cons.sizeOf_spec] at this ⊢
        omega

theorem sizeOf_mem_list : ∀ (l : List PyVal) (v : PyVal),
    v ∈ l → sizeOf v < sizeOf (PyVal.vList l) := by
  intro l
  induction l with
  | nil => intro v h; cases h
  | cons x rest ih =>
      intro v hmem
      rcases List.mem_cons.mp hmem with heq | hmem2
      · subst heq
        simp only [PyVal.vList.sizeOf_spec, List.cons.sizeOf_spec]
        omega
      · have := ih v hmem2
        simp only [PyVal.vList.sizeOf_spec, List.cons.sizeOf_spec] at this ⊢
        omega

theorem escapePass1_goodVals (d : List (String × PyVal))
    (H : ∀ (k : String) (v : PyVal), (k, v) ∈ d → goodKeysVal (escapeValue v) = true) :
    goodVals (escapePass1 d) = true := by
  induction d with
  | nil => rfl
  | cons p rest ih =>
      obtain ⟨k, v⟩ := p
      simp only [escapePass1, goodVals, Bool.and_eq_true]
      exact ⟨H k v (by simp), ih (fun k2 v2 h2 => H k2 v2 (by simp [h2]))⟩

theorem escapeElems_good (l : List PyVal)
    (H : ∀ v ∈ l, goodKeysVal (escapeValue v) = true)
    (hwf : wfElems l = true) :
    goodKeysList (escapeElems l) = true := by
  induction l with
  | nil => rfl
  | cons v rest ih =>
      cases v with
      | vList l2 => simp [wfElems] at hwf
      | vDict d =>
          simp only [wfElems, Bool.and_eq_true] at hwf
          simp only [escapeElems, goodKeysList, Bool.and_eq_true]
          exact ⟨H (PyVal.vDict d) (by simp), ih (fun w hw => H w (by simp [hw])) hwf.2⟩
      | vInt n =>
          simp only [wfElems] at hwf
          simp only [escapeElems, goodKeysList, Bool.and_eq_true]
          exact ⟨rfl, ih (fun w hw => H w (by simp [hw])) hwf⟩
      | vStr s =>
          simp only [wfElems] at hwf
          simp only [escapeElems, goodKeysList, Bool.and_eq_true]
          exact ⟨rfl, ih (fun w hw => H w (by simp [hw])) hwf⟩
      | vNone =>
          simp only [wfElems] at hwf
          simp only [escapeElems, goodKeysList, Bool.and_eq_true]
          exact ⟨rfl, ih (fun w hw => H w (by simp [hw])) hwf⟩

theorem wfElems_mem : ∀ (l : List PyVal) (v : PyVal),
    wfElems l = true → v ∈ l → wfVal v = true := by
  intro l
  induction l with
  | nil => intro v _ h; cases h
  | cons x rest ih =>
      intro v hwf hmem
      cases x with
      | vList l2 => simp [wfElems] at hwf
      | vDict d =>
          simp only [wfElems, Bool.and_eq_true] at hwf
          rcases List.mem_cons.mp hmem with heq | hmem2
          · subst heq; exact hwf.1
          · exact ih v hwf.2 hmem2
      | vInt n =>
          simp only [wfElems] at hwf
          rcases List.mem_cons.mp hmem with heq | hmem2
          · subst heq; rfl
          · exact ih v hwf hmem2
      | vStr s =>
          simp only [wfElems] at hwf
          rcases List.mem_cons.mp hmem with heq | hmem2
          · subst heq; rfl
          · exact ih v hwf hmem2
      | vNone =>
          simp only [wfElems] at hwf
          rcases List.mem_cons.mp hmem with heq | hmem2
          · subst heq; rfl
          · exact ih v hwf hmem2

theorem goodKeys_escapeValue : ∀ (n : Nat) (v : PyVal), sizeOf v ≤ n → wfVal v = true →
    goodKeysVal (escapeValue v) = true := by
  intro n
  induction n using Nat.strong_induction_on with
  | _ n ih =>
      intro v hsz hwf
      cases v with
      | vInt m => rfl
      | vStr s => rfl
      | vNone => rfl
      | vDict d =>
          rw [escapeValue_vDict]
          show goodKeysDict (escapeFieldNames d) = true
          simp only [escapeFieldNames]
          apply fixKeys_good
          · apply escapePass1_goodVals
            intro k v2 hmem
            have hs := sizeOf_mem_dict d k v2 hmem
            exact ih (sizeOf v2) (lt_of_lt_of_le hs hsz) v2 (Nat.le_refl _)
              (wfDict_mem d k v2 hwf hmem)
          · intro k hk
            exact (List.mem_filter.mp hk).2
          · intro k hnf
            rw [escapePass1_keys, List.count_filter hnf]
      | vList l =>
          show goodKeysList (escapeElems l) = true
          apply escapeElems_good
          · intro v2 hmem
            have hs := sizeOf_mem_list l v2 hmem
            exact ih (sizeOf v2) (lt_of_lt_of_le hs hsz) v2 (Nat.le_refl _)
              (wfElems_mem l v2 hwf hmem)
          · exact hwf

theorem lookup_isSome_iff_mem_keys (k : String) : ∀ (d : List (String × PyVal)),
    (List.lookup k d).isSome = true ↔ k ∈ d.map Prod.fst := by
  intro d
  induction d with
  | nil => simp [List.lookup]
  | cons p rest ih =>
      obtain ⟨k1, v1⟩ := p
      simp only [List.lookup, List.map_cons, List.mem_cons]
      by_cases hk : k = k1
      · rw [show (k == k1) = true by simpa using hk]
        simp [hk]
      · rw [show (k == k1) = false by simpa using hk]
        simp only [hk, false_or]
        exact ih

theorem mem_keys_dictErase (k : String) : ∀ (d : List (String × PyVal)) (k' : String),
    (d.map Prod.fst).Nodup →
    (k' ∈ (dictErase d k).map Prod.fst ↔ k' ∈ d.map Prod.fst ∧ k' ≠ k) := by
  intro d
  induction d with
  | nil => intro k' _; simp [dictErase]
  | cons p rest ih =>
      obtain ⟨k1, v1⟩ := p
      intro k' hnd
      simp only [List.map_cons, List.nodup_cons] at hnd
      simp only [dictErase]
      by_cases hk : k1 = k
      · rw [if_pos hk]
        subst hk
        simp only [List.map_cons, List.mem_cons]
        constructor
        · intro hmem
          refine ⟨Or.inr hmem, ?_⟩
          intro he
          rw [he] at hmem
          exact hnd.1 hmem
        · rintro ⟨hmem | hmem, hne⟩
          · exact absurd hmem hne
          · exact hmem
      · rw [if_neg hk]
        simp only [List.map_cons, List.mem_cons]
        rw [ih k' hnd.2]
        constructor
        · rintro (heq | ⟨hmem, hne⟩)
          · subst heq
            exact ⟨Or.inl rfl, fun he => hk he⟩
          · exact ⟨Or.inr hmem, hne⟩
        · rintro ⟨heq | hmem, hne⟩
          · exact Or.inl heq
          · exact Or.inr ⟨hmem, hne⟩

theorem mem_keys_dictSet (k : String) (v : PyVal) : ∀ (d : List (String × PyVal)) (k' : String),
    k' ∈ (dictSet d k v).map Prod.fst ↔ k' ∈ d.map Prod.fst ∨ k' = k := by
  intro d
  induction d with
  | nil => intro k'; simp [dictSet]
  | cons p rest ih =>
      obtain ⟨k1, v1⟩ := p
      intro k'
      simp only [dictSet]
      by_cases hk : k1 = k
      · rw [if_pos hk]
        subst hk
        simp only [List.map_cons, List.mem_cons]
        constructor
        · rintro (heq | hmem)
          · exact Or.inr heq
          · exact Or.inl (Or.inr hmem)
        · rintro ((heq | hmem) | heq)
          · exact Or.inl heq
          · exact Or.inr hmem
          · exact Or.inl heq
      · rw [if_neg hk]
        simp only [List.map_cons, List.mem_cons]
        rw [ih k']
        tauto

theorem nodup_keys_dictErase (k : String) : ∀ (d : List (String × PyVal)),
    (d.map Prod.fst).Nodup → ((dictErase d k).map Prod.fst).Nodup := by
  intro d
  induction d with
  | nil => intro _; simp [dictErase]
  | cons p rest ih =>
      obtain ⟨k1, v1⟩ := p
      intro hnd
      simp only [List.map_cons, List.nodup_cons] at hnd
      simp only [dictErase]
      by_cases hk : k1 = k
      · rw [if_pos hk]; exact hnd.2
      · rw [if_neg hk]
        simp only [List.map_cons, List.nodup_cons]
        refine ⟨?_, ih hnd.2⟩
        intro hmem
        rcases hcase : rest.map Prod.fst with _ | _
        all_goals
          have hsub : k1 ∈ rest.map Prod.fst := by
            have := (mem_keys_dictErase k rest k1 hnd.2).mp hmem
            exact this.1
        all_goals exact hnd.1 hsub

theorem nodup_keys_dictSet (k : String) (v : PyVal) : ∀ (d : List (String × PyVal)),
    (d.map Prod.fst).Nodup → ((dictSet d k v).map Prod.fst).Nodup := by
  intro d
  induction d with
  | nil => intro _; simp [dictSet]
  | cons p rest ih =>
      obtain ⟨k1, v1⟩ := p
      intro hnd
      simp only [List.map_cons, List.nodup_cons] at hnd
      simp only [dictSet]
      by_cases hk : k1 = k
      · rw [if_pos hk]
        simp only [List.map_cons, List.nodup_cons]
        exact hnd
      · rw [if_neg hk]
        simp only [List.map_cons, List.nodup_cons]
        refine ⟨?_, ih hnd.2⟩
        intro hmem
        rcases (mem_keys_dictSet k v rest k1).mp hmem with hmem2 | heq
        · exact hnd.1 hmem2
        · exact hk heq

theorem fixKeys_keys : ∀ (toFix : List String) (acc : List (String × PyVal)),
    (acc.map Prod.fst).Nodup → toFix.Nodup →
    (∀ k ∈ toFix, needsFix k = true ∧ k ∈ acc.map Prod.fst) →
    (∀ k ∈ acc.map Prod.fst, needsFix k = true → k ∈ toFix) →
    ∀ k', (k' ∈ (fixKeys toFix acc).map Prod.fst ↔
      ∃ k ∈ acc.map Prod.fst, escapeKey k = k') := by
  intro toFix
  induction toFix with
  | nil =>
      intro acc hnd _ _ hbad k'
      constructor
      · intro hmem
        have hgood : needsFix k' = false := by
          cases hnf : needsFix k' with
          | false => rfl
          | true => exact absurd (hbad k' hmem hnf) (by simp)
        exact ⟨k', hmem, escapeKey_of_good k' hgood⟩
      · rintro ⟨k, hk, he⟩
        have hgood : needsFix k = false := by
          cases hnf : needsFix k with
          | false => rfl
          | true => exact absurd (hbad k hk hnf) (by simp)
        rw [← he, escapeKey_of_good k hgood]
        exact hk
  | cons k0 rest ih =>
      intro acc hnd hndf htf hbad k'
      obtain ⟨hk0bad, hk0mem⟩ := htf k0 (by simp)
      obtain ⟨v, hlk⟩ := Option.isSome_iff_exists.mp
        ((lookup_isSome_iff_mem_keys k0 acc).mpr hk0mem)
      rw [fixKeys_cons, hlk]
      simp only [List.nodup_cons] at hndf
      have hndE := nodup_keys_dictErase k0 acc hnd
      have hndS := nodup_keys_dictSet (escapeKey k0) v _ hndE
      rw [ih _ hndS hndf.2 ?hp3 ?hp4 k']
      case hp3 =>
        intro k hk
        obtain ⟨hkbad, hkmem⟩ := htf k (by simp [hk])
        refine ⟨hkbad, ?_⟩
        rw [mem_keys_dictSet]
        left
        rw [mem_keys_dictErase k0 acc k hnd]
        exact ⟨hkmem, fun he => hndf.1 (he ▸ hk)⟩
      case hp4 =>
        intro k hkmem hkbad
        rw [mem_keys_dictSet] at hkmem
        rcases hkmem with hkmem | heq
        · rw [mem_keys_dictErase k0 acc k hnd] at hkmem
          have := hbad k hkmem.1 hkbad
          rcases List.mem_cons.mp this with heq2 | hmem2
          · exact absurd heq2 hkmem.2
          · exact hmem2
        · rw [heq, needsFix_escapeKey] at hkbad
          cases hkbad
      constructor
      · rintro ⟨k, hkmem, he⟩
        rw [mem_keys_dictSet] at hkmem
        rcases hkmem with hkmem | heq
        · rw [mem_keys_dictErase k0 acc k hnd] at hkmem
          exact ⟨k, hkmem.1, he⟩
        · refine ⟨k0, hk0mem, ?_⟩
          rw [← he, heq]
          exact (escapeKey_of_good _ (needsFix_escapeKey k0)).symm
      · rintro ⟨k, hkmem, he⟩
        by_cases hk : k = k0
        · subst hk
          refine ⟨escapeKey k, ?_, ?_⟩
          · rw [mem_keys_dictSet]
            exact Or.inr rfl
          · rw [escapeKey_of_good _ (needsFix_escapeKey k)]
            exact he
        · refine ⟨k, ?_, he⟩
          rw [mem_keys_dictSet]
          left
          rw [mem_keys_dictErase k0 acc k hnd]
          exact ⟨hkmem, hk⟩

/-- C10: on an input whose values are nested dictionaries and lists of
dictionaries with Python-dict (duplicate-free) keys, `escapeFieldNames`
returns a dictionary with no key starting with `$` and no key containing
`.` at any nesting depth, and its key set is exactly the image of the
original keys under the fix (backslash-prefix for `$`-keys, `.` replaced
by `__`, other keys unchanged — `escapeKey`). -/
theorem escapeFieldNames_no_bad_keys (d : List (String × PyVal))
    (hwf : wfDict d = true) (hnd : (d.map Prod.fst).Nodup) :
    goodKeysDict (escapeFieldNames d) = true ∧
    ∀ k', (k' ∈ (escapeFieldNames d).map Prod.fst ↔
        ∃ k ∈ d.map Prod.fst, escapeKey k = k') := by
  constructor
  · have hg := goodKeys_escapeValue (sizeOf (PyVal.vDict d)) (PyVal.vDict d)
      (Nat.le_refl _) hwf
    rw [escapeValue_vDict] at hg
    exact hg
  · intro k'
    simp only [escapeFieldNames]
    rw [fixKeys_keys _ _ ?h1 ?h2 ?h3 ?h4 k']
    case h1 => rw [escapePass1_keys]; exact hnd
    case h2 => exact hnd.filter _
    case h3 =>
      intro k hk
      have hm := List.mem_filter.mp hk
      exact ⟨hm.2, by rw [escapePass1_keys]; exact hm.1⟩
    case h4 =>
      intro k hk hbad
      rw [escapePass1_keys] at hk
      exact List.mem_filter.mpr ⟨hk, hbad⟩
    rw [escapePass1_keys]

/-- Witness for C10: a dict with a `$`-key whose value is a dict with a
dotted key, plus a clean key. -/
theorem escapeFieldNames_no_bad_keys_witness :
    goodKeysDict (escapeFieldNames
      [(("$set"), PyVal.vDict [(("a.b"), PyVal.vInt 1)]), (("x"), PyVal.vInt 2)]) = true ∧
    ∀ k', (k' ∈ (escapeFieldNames
        [(("$set"), PyVal.vDict [(("a.b"), PyVal.vInt 1)]), (("x"), PyVal.vInt 2)]).map Prod.fst ↔
      ∃ k ∈ ([(("$set"), PyVal.vDict [(("a.b"), PyVal.vInt 1)]),
        (("x"), PyVal.vInt 2)] : List (String × PyVal)).map Prod.fst, escapeKey k = k') :=
  escapeFieldNames_no_bad_keys
    [(("$set"), PyVal.vDict [(("a.b"), PyVal.vInt 1)]), (("x"), PyVal.vInt 2)]
    (by decide) (by decide)

/-- Modelled from the spec (§3 Session, §4.2 Workload Segmenter): the
operation and session shapes the segmenter consumes.  The cost-model
component itself is not among the available sources — only its unit test
is — so the segmenter is reconstructed from the specification's contract.
Timestamps are rationals (the trace carries fractional epoch seconds). -/
structure SOp where
  queryTime : ℚ
  respTime : ℚ
deriving DecidableEq, Repr

structure SSession where
  start_time : ℚ
  end_time : ℚ
  operations : List SOp
deriving DecidableEq, Repr

inductive SegError where
  | invalidConfiguration
deriving DecidableEq, Repr

/-- All operations of the trace, in session order. -/
def allOps (ss : List SSession) : List SOp :=
  (ss.map SSession.operations).flatten

/-- The start of the trace span across all sessions (0 for an empty
trace, where no operation exists to be bucketed anyway). -/
def traceMin (ss : List SSession) : ℚ :=
  match ss.map SSession.start_time with
  | [] => 0
  | t :: ts => ts.foldl min t

/-- The end of the trace span across all sessions. -/
def traceMax (ss : List SSession) : ℚ :=
  match ss.map SSession.end_time with
  | [] => 0
  | t :: ts => ts.foldl max t

/-- Modelled from the spec: the interval holding time `t` when `[minT,
maxT]` is cut into `n` equal-width windows — the floor of the scaled
offset, clamped so the last window is inclusive on both ends (and a
degenerate span maps everything to window 0). -/
def intervalIndex (minT maxT : ℚ) (n : Nat) (t : ℚ) : Nat :=
  if maxT ≤ minT then 0
  else min (n - 1) (Int.toNat ⌊(t - minT) * n / (maxT - minT)⌋)

/-- Modelled from the spec (§4.2): `segmentWorkload(sessions, intervalCount)` —
`InvalidConfiguration` for a non-positive interval count, otherwise
`intervalCount` chronological buckets, each operation assigned by its
`query_time`. -/
def segmentWorkload (ss : List SSession) (n : Nat) : Except SegError (List (List SOp)) :=
  if n = 0 then .error SegError.invalidConfiguration
  else .ok ((List.range n).map (fun i =>
    (allOps ss).filter
      (fun o => intervalIndex (traceMin ss) (traceMax ss) n o.queryTime = i)))

theorem intervalIndex_lt (minT maxT : ℚ) (n : Nat) (t : ℚ) (hn : 0 < n) :
    intervalIndex minT maxT n t < n := by
  unfold intervalIndex
  by_cases h : maxT ≤ minT
  · rw [if_pos h]; exact hn
  · rw [if_neg h]
    have : min (n - 1) (Int.toNat ⌊(t - minT) * n / (maxT - minT)⌋) ≤ n - 1 :=
      Nat.min_le_left _ _
    omega

theorem sum_range_indicator (c : Nat) : ∀ (n k : Nat), k < n →
    ((List.range n).map (fun i => if k = i then c else 0)).sum = c := by
  intro n
  induction n with
  | zero => intro k hk; cases hk
  | succ m ih =>
      intro k hk
      rw [List.range_succ, List.map_append, List.sum_append]
      by_cases hkm : k < m
      · rw [ih k hkm]
        simp [Nat.ne_of_lt hkm]
      · have hk2 : k = m := by omega
        subst hk2
        have hz : ((List.range k).map (fun i => if k = i then c else 0)).sum = 0 := by
          apply List.sum_eq_zero
          intro x hx
          obtain ⟨i, hi, hix⟩ := List.mem_map.mp hx
          rw [← hix, if_neg (Nat.ne_of_gt (List.mem_range.mp hi))]
        rw [hz]
        simp

theorem count_filter_eq (p : SOp → Bool) (a : SOp) (ops : List SOp) :
    (ops.filter p).count a = if p a = true then ops.count a else 0 := by
  by_cases hp : p a = true
  · rw [if_pos hp, List.count_filter hp]
  · rw [if_neg hp]
    rw [List.count_eq_zero]
    intro hmem
    exact hp (List.of_mem_filter hmem)

/-- C8: for every session list and every positive interval count,
`segmentWorkload` returns exactly `intervalCount` buckets whose concatenation is a
permutation of the full operation trace — each operation lands in exactly
one bucket, none duplicated or dropped. -/
theorem segment_partition (ss : List SSession) (n : Nat) (hn : 0 < n) :
    ∃ buckets, segmentWorkload ss n = .ok buckets ∧ buckets.length = n ∧
      buckets.flatten.Perm (allOps ss) := by
  refine ⟨_, by rw [segmentWorkload, if_neg (Nat.pos_iff_ne_zero.mp hn)], by simp, ?_⟩
  rw [List.perm_iff_count]
  intro a
  rw [List.count_flatten, List.map_map]
  have hcong : (List.count a ∘ fun i =>
      (allOps ss).filter
        (fun o => intervalIndex (traceMin ss) (traceMax ss) n o.queryTime = i)) =
      (fun i => if intervalIndex (traceMin ss) (traceMax ss) n a.queryTime = i
        then (allOps ss).count a else 0) := by
    funext i
    simp only [Function.comp]
    rw [count_filter_eq]
    by_cases hi : intervalIndex (traceMin ss) (traceMax ss) n a.queryTime = i
    · simp [hi]
    · simp only [hi, if_false]
      rw [if_neg (fun hh => hi (by simp at hh))]
  rw [hcong]
  exact sum_range_indicator _ n _ (intervalIndex_lt _ _ _ _ hn)

/-- Witness for C8: two sessions, three operations, two intervals. -/
theorem segment_partition_witness :
    ∃ buckets, segmentWorkload
        [⟨0, 2, [⟨0, 1⟩, ⟨1, 2⟩]⟩, ⟨2, 4, [⟨3, 4⟩]⟩] 2 = .ok buckets ∧
      buckets.length = 2 ∧
      buckets.flatten.Perm (allOps [⟨0, 2, [⟨0, 1⟩, ⟨1, 2⟩]⟩, ⟨2, 4, [⟨3, 4⟩]⟩]) :=
  segment_partition [⟨0, 2, [⟨0, 1⟩, ⟨1, 2⟩]⟩, ⟨2, 4, [⟨3, 4⟩]⟩] 2 (by decide)

/-- Modelled from the spec (§3 Operation, §4.3 networkCost): the operation
fields the cost model reads — target collection, type string, predicate
kinds per field, response size. -/
inductive PredKind where
  | equality
  | range
  | other
deriving DecidableEq, Repr

structure NOp where
  collection : String
  typ : String
  predicates : List (String × PredKind)
  responseSize : Nat
deriving DecidableEq, Repr

/-- Modelled from the spec (§3 Design): shard keys per collection and
denormalization parent links (no independent shard key for an embedded
collection). -/
structure Design where
  shardKeys : List (String × List String)
  denormParent : List (String × String)
deriving DecidableEq, Repr

/-- Modelled from the spec (§3 ResourceConfig, §4.3 overallCost): node
count and the three cost weights. -/
structure CostConfig where
  nodes : Nat
  wNet : ℚ
  wSkew : ℚ
  wDisk : ℚ
deriving DecidableEq, Repr

/-- Modelled from the spec (§9): resolving a collection's effective
shard-key owner follows `denorm_parent` to the root (the fuel bounds the
walk; the design invariant keeps the graph acyclic and at most one level
deep). -/
def denormRoot (d : Design) : Nat → String → String
  | 0, c => c
  | fuel + 1, c =>
      match List.lookup c d.denormParent with
      | some p => denormRoot d fuel p
      | none => c

def effectiveCollection (d : Design) (c : String) : String :=
  denormRoot d d.denormParent.length c

/-- Modelled from the spec (§4.3): read operations weigh by
`response_size`, write operations by a fixed unit cost. -/
def opWeight (op : NOp) : ℚ :=
  if op.typ = "$query" then (op.responseSize : ℚ) else 1

/-- Modelled from the spec (§4.3, §7): the joint number of distinct values
of the shard-key fields; `none` when the collection or any field statistic
is missing (treated conservatively as broadcast). -/
def combinedCardinality (stats : List Col) (c : String) (key : List String) : Option Nat :=
  match findCol stats c with
  | none => none
  | some col => key.foldl (fun acc f =>
      match acc, List.lookup f col.fields with
      | some n, some fm => some (n * fm.cardinality)
      | _, _ => none) (some 1)

/-- Modelled from the spec (§4.3): an operation routes to a single node
exactly when every field of the effective collection's shard key carries
an equality predicate and the combined selectivity is high enough to pin
one shard range — modelled as the shard-key fields jointly having at least
one distinct value per node. -/
def routesToOne (d : Design) (stats : List Col) (cfg : CostConfig) (op : NOp) : Bool :=
  match List.lookup (effectiveCollection d op.collection) d.shardKeys with
  | none => false
  | some key =>
      key.all (fun f => decide (List.lookup f op.predicates = some PredKind.equality)) &&
      (match combinedCardinality stats (effectiveCollection d op.collection) key with
       | some card => decide (cfg.nodes ≤ card)
       | none => false)

def opNodes (d : Design) (stats : List Col) (cfg : CostConfig) (op : NOp) : Nat :=
  if routesToOne d stats cfg op then 1 else cfg.nodes

/-- Modelled from the spec (§4.3): an operation's networkCost contribution
is its destination node count times its weight. -/
def opContribution (d : Design) (stats : List Col) (cfg : CostConfig) (op : NOp) : ℚ :=
  (opNodes d stats cfg op : ℚ) * opWeight op

/-- Modelled from the spec (§4.3): total networkCost, normalized by the
number of operations. -/
def networkCost (d : Design) (stats : List Col) (cfg : CostConfig) (ops : List NOp) : ℚ :=
  if ops.length = 0 then 0
  else ((ops.map (opContribution d stats cfg)).sum) / (ops.length : ℚ)

/-- C1 amended: (a) an operation whose effective shard key's fields all
appear as equality predicates with combined selectivity high enough to pin
one shard range contributes exactly `1 × weight`; (b) under a design
sharding on `{_id}` while the operation's predicates never mention `_id`,
the contribution is `node_count × weight`, strictly greater than the
single-node contribution whenever `node_count > 1` and the operation's
weight is positive (a read whose `response_size` is 0 has weight 0, so
both contributions vanish and the comparison ties — see the
counterexample below). -/
theorem networkCost_equality_routing :
    (∀ (d : Design) (stats : List Col) (cfg : CostConfig) (op : NOp) (key : List String)
      (card : Nat),
      List.lookup (effectiveCollection d op.collection) d.shardKeys = some key →
      (∀ f ∈ key, List.lookup f op.predicates = some PredKind.equality) →
      combinedCardinality stats (effectiveCollection d op.collection) key = some card →
      cfg.nodes ≤ card →
      opContribution d stats cfg op = 1 * opWeight op) ∧
    (∀ (d : Design) (stats : List Col) (cfg : CostConfig) (op : NOp),
      List.lookup (effectiveCollection d op.collection) d.shardKeys = some [("_id")] →
      List.lookup ("_id") op.predicates = none →
      opContribution d stats cfg op = (cfg.nodes : ℚ) * opWeight op ∧
        (1 < cfg.nodes → 0 < opWeight op →
          1 * opWeight op < opContribution d stats cfg op)) := by
  constructor
  · intro d stats cfg op key card hkey hpred hcard hn
    have hroute : routesToOne d stats cfg op = true := by
      simp only [routesToOne, hkey, hcard, Bool.and_eq_true, List.all_eq_true]
      constructor
      · intro f hf
        simp [hpred f hf]
      · simp [hn]
    simp [opContribution, opNodes, hroute]
  · intro d stats cfg op hkey hpred
    have hroute : routesToOne d stats cfg op = false := by
      simp [routesToOne, hkey, hpred]
    constructor
    · simp [opContribution, opNodes, hroute]
    · intro hnodes hw
      simp only [opContribution, opNodes, hroute, if_false, one_mul]
      calc opWeight op = 1 * opWeight op := (one_mul _).symm
        _ < (cfg.nodes : ℚ) * opWeight op := by
            apply mul_lt_mul_of_pos_right _ hw
            exact_mod_cast hnodes

/-- Witness for C1: two nodes; sharding collection `A` on high-cardinality
field `x` makes the equality query a 1-node operation (contribution 100 =
its weight); sharding on `_id` with a query on unrelated `y` broadcasts
(contribution 2 × 100, strictly above the single-node 100). -/
theorem networkCost_equality_routing_witness :
    opContribution ⟨[(("A"), [("x")])], []⟩
        [⟨("A"), [(("x"), ⟨("int"), 0, 50, 0⟩)], 100, 8⟩] ⟨2, 1, 1, 1⟩
        ⟨("A"), ("$query"), [(("x"), PredKind.equality)], 100⟩ =
      1 * opWeight ⟨("A"), ("$query"), [(("x"), PredKind.equality)], 100⟩ ∧
    (opContribution ⟨[(("A"), [("_id")])], []⟩
        [⟨("A"), [(("x"), ⟨("int"), 0, 50, 0⟩)], 100, 8⟩] ⟨2, 1, 1, 1⟩
        ⟨("A"), ("$query"), [(("y"), PredKind.equality)], 100⟩ =
      ((2 : Nat) : ℚ) * opWeight ⟨("A"), ("$query"), [(("y"), PredKind.equality)], 100⟩ ∧
      1 * opWeight ⟨("A"), ("$query"), [(("y"), PredKind.equality)], 100⟩ <
        opContribution ⟨[(("A"), [("_id")])], []⟩
          [⟨("A"), [(("x"), ⟨("int"), 0, 50, 0⟩)], 100, 8⟩] ⟨2, 1, 1, 1⟩
          ⟨("A"), ("$query"), [(("y"), PredKind.equality)], 100⟩) :=
  ⟨networkCost_equality_routing.1 ⟨[(("A"), [("x")])], []⟩
      [⟨("A"), [(("x"), ⟨("int"), 0, 50, 0⟩)], 100, 8⟩] ⟨2, 1, 1, 1⟩
      ⟨("A"), ("$query"), [(("x"), PredKind.equality)], 100⟩ [("x")] 50
      (by decide) (by decide) (by decide) (by decide),
    (networkCost_equality_routing.2 ⟨[(("A"), [("_id")])], []⟩
      [⟨("A"), [(("x"), ⟨("int"), 0, 50, 0⟩)], 100, 8⟩] ⟨2, 1, 1, 1⟩
      ⟨("A"), ("$query"), [(("y"), PredKind.equality)], 100⟩
      (by decide) (by decide)).1,
    (networkCost_equality_routing.2 ⟨[(("A"), [("_id")])], []⟩
      [⟨("A"), [(("x"), ⟨("int"), 0, 50, 0⟩)], 100, 8⟩] ⟨2, 1, 1, 1⟩
      ⟨("A"), ("$query"), [(("y"), PredKind.equality)], 100⟩
      (by decide) (by decide)).2 (by decide) (by norm_num [opWeight])⟩

/-- Modelled from the spec (§4.3 overallCost): the weighted combination
`w_net × networkCost + w_skew × skewCost + w_disk × diskCost` with the
weights supplied by the configuration. -/
def overallCost (cfg : CostConfig) (net skew disk : ℚ) : ℚ :=
  cfg.wNet * net + cfg.wSkew * skew + cfg.wDisk * disk

/-- C9: with non-negative weights (the configuration validation rejects
degenerate weightings), `overallCost` is monotonically non-decreasing in
each of the network, skew and disk components, the other two and the
weights held fixed. -/
theorem overallCost_monotone (cfg : CostConfig)
    (hn : 0 ≤ cfg.wNet) (hs : 0 ≤ cfg.wSkew) (hd : 0 ≤ cfg.wDisk) :
    (∀ (net net2 skew disk : ℚ), net ≤ net2 →
      overallCost cfg net skew disk ≤ overallCost cfg net2 skew disk) ∧
    (∀ (net skew skew2 disk : ℚ), skew ≤ skew2 →
      overallCost cfg net skew disk ≤ overallCost cfg net skew2 disk) ∧
    (∀ (net skew disk disk2 : ℚ), disk ≤ disk2 →
      overallCost cfg net skew disk ≤ overallCost cfg net skew disk2) := by
  refine ⟨?_, ?_, ?_⟩
  · intro net net2 skew disk h
    unfold overallCost
    have := mul_le_mul_of_nonneg_left h hn
    linarith
  · intro net skew skew2 disk h
    unfold overallCost
    have := mul_le_mul_of_nonneg_left h hs
    linarith
  · intro net skew disk disk2 h
    unfold overallCost
    have := mul_le_mul_of_nonneg_left h hd
    linarith

/-- Witness for C9: unit weights, each component bumped in turn. -/
theorem overallCost_monotone_witness :
    overallCost ⟨4, 1, 1, 1⟩ 1 2 3 ≤ overallCost ⟨4, 1, 1, 1⟩ 5 2 3 ∧
    overallCost ⟨4, 1, 1, 1⟩ 1 2 3 ≤ overallCost ⟨4, 1, 1, 1⟩ 1 6 3 ∧
    overallCost ⟨4, 1, 1, 1⟩ 1 2 3 ≤ overallCost ⟨4, 1, 1, 1⟩ 1 2 7 :=
  ⟨(overallCost_monotone ⟨4, 1, 1, 1⟩ (by norm_num) (by norm_num) (by norm_num)).1
      1 5 2 3 (by norm_num),
    (overallCost_monotone ⟨4, 1, 1, 1⟩ (by norm_num) (by norm_num) (by norm_num)).2.1
      1 2 6 3 (by norm_num),
    (overallCost_monotone ⟨4, 1, 1, 1⟩ (by norm_num) (by norm_num) (by norm_num)).2.2
      1 2 3 7 (by norm_num)⟩

/-- Counterexample to C1 as frozen: under a `{_id}` design with 2 nodes, a
`$query` on an unrelated field whose `response_size` is 0 broadcasts —
its contribution is `node_count × weight` — yet it is NOT strictly greater
than the single-node contribution, because the read's weight
(`response_size`) is 0 and both sides vanish. -/
theorem networkCost_zero_weight_counterexample :
    1 < (⟨2, 1, 1, 1⟩ : CostConfig).nodes ∧
    opContribution ⟨[(("A"), [("_id")])], []⟩
        [⟨("A"), [(("x"), ⟨("int"), 0, 50, 0⟩)], 100, 8⟩] ⟨2, 1, 1, 1⟩
        ⟨("A"), ("$query"), [(("y"), PredKind.equality)], 0⟩ =
      ((⟨2, 1, 1, 1⟩ : CostConfig).nodes : ℚ) *
        opWeight ⟨("A"), ("$query"), [(("y"), PredKind.equality)], 0⟩ ∧
    ¬ (1 * opWeight ⟨("A"), ("$query"), [(("y"), PredKind.equality)], 0⟩ <
        opContribution ⟨[(("A"), [("_id")])], []⟩
          [⟨("A"), [(("x"), ⟨("int"), 0, 50, 0⟩)], 100, 8⟩] ⟨2, 1, 1, 1⟩
          ⟨("A"), ("$query"), [(("y"), PredKind.equality)], 0⟩) := by
  have hw : opWeight ⟨("A"), ("$query"), [(("y"), PredKind.equality)], 0⟩ = 0 := by
    simp [opWeight]
  refine ⟨by decide, ?_, ?_⟩
  · simp only [opContribution, hw, mul_zero]
  · simp only [opContribution, hw, mul_zero]
    exact lt_irrefl 0
